import Mathlib

/-!
Shallow embedding of the fixed-content bracelet generator of
bracelets.py (Karim, Sawada, Alambir, Husnine 2013) together with the
parts of ferecrystal_isomers.py that the verified claims mention.
The repository is Python 2 code: integer division imported from
future is true division, and comparisons between an int and a list
order the int first.  All Python ints are modelled as Int, Python
lists of ints as List Int.
-/

namespace Ferecrystal

/-- Python style list read: a negative index wraps once from the end of
the list; an index that is still out of range yields the default value
d.  CPython would raise IndexError on such a read; on all reads that the
theorems below depend on, the index is in range. -/
def pyget (xs : List Int) (i : Int) (d : Int) : Int :=
  let j : Int := if i < 0 then i + xs.length else i
  if 0 ≤ j ∧ j < xs.length then xs.getD j.toNat d else d

/-- Python style list write: a negative index wraps once from the end;
an out of range index leaves the list unchanged (CPython would raise
IndexError; the algorithm never writes out of range on the paths the
theorems depend on). -/
def pyset (xs : List Int) (i : Int) (v : Int) : List Int :=
  let j : Int := if i < 0 then i + xs.length else i
  if 0 ≤ j ∧ j < xs.length then xs.set j.toNat v else xs

/-- The double linked list of bracelets.py: remaining counts n, the
number of symbols n_items, the total content n_tot, downward next
links, upward prev links, and the head pointer.  Python keeps n_items
and n_tot as plain ints, so they are Int here as well. -/
structure DoubleLinkedList where
  n : List Int
  n_items : Int
  n_tot : Int
  next : List Int
  prev : List Int
  head : Int
deriving DecidableEq, Repr

namespace DoubleLinkedList

/-- DoubleLinkedList.__init__ of bracelets.py: next i = i - 1 and
prev i = i + 1 for i in range(n_items + 1); head starts at
n_items - 1. -/
def make (component_list : List Int) : DoubleLinkedList :=
  { n := component_list
    n_items := (component_list.length : Int)
    n_tot := component_list.sum
    next := (List.range (component_list.length + 1)).map (fun i : Nat => (i : Int) - 1)
    prev := (List.range (component_list.length + 1)).map (fun i : Nat => (i : Int) + 1)
    head := (component_list.length : Int) - 1 }

/-- DoubleLinkedList.add of bracelets.py.  The reads and writes happen
in the statement order of the source. -/
def add (dll : DoubleLinkedList) (j : Int) : DoubleLinkedList :=
  let n := pyget dll.next j 0
  let p := pyget dll.prev j 0
  let prev1 := pyset dll.prev n j
  let next1 := pyset dll.next p j
  let dll1 := { dll with prev := prev1, next := next1 }
  if pyget dll1.prev j 0 = dll1.n_items then { dll1 with head := j } else dll1

/-- DoubleLinkedList.remove of bracelets.py. -/
def remove (dll : DoubleLinkedList) (j : Int) : DoubleLinkedList :=
  let dll1 := if j = dll.head then { dll with head := pyget dll.next j 0 } else dll
  let n := pyget dll1.next j 0
  let p := pyget dll1.prev j 0
  { dll1 with next := pyset dll1.next p n, prev := pyset dll1.prev n p }

end DoubleLinkedList

/-- The run length state lenenc of bracelets.py.  In Python it is the
heterogeneous list [m, [s1, c1], ..., [sm, cm]]; here the count m and
the list of runs are separate fields.  lenenc[i] for i at least 1 is
runs[i - 1]. -/
structure LenEnc where
  m : Int
  runs : List (Int × Int)
deriving DecidableEq, Repr

/-- Read lenenc[i] for a positive index i, that is runs[i - 1]; out of
range reads yield the pair (0, 0).  CPython would raise IndexError
there; check_rev only reads indices between 1 and m. -/
def lenencGet (le : LenEnc) (i : Int) : Int × Int :=
  if 1 ≤ i ∧ i ≤ (le.runs.length : Int) then le.runs.getD (i - 1).toNat (0, 0) else (0, 0)

/-- Bracelets.update_run_length of bracelets.py: extend the last run if
the symbol matches, otherwise append a fresh run (j, 1) and bump m.
The source reads lenenc[-1]; the runs list is never empty when this is
called, and an empty runs list here behaves like the append branch. -/
def update_run_length (j : Int) (le : LenEnc) : LenEnc :=
  match le.runs.getLast? with
  | some (s, c) =>
      if s = j then { le with runs := le.runs.dropLast ++ [(s, c + 1)] }
      else { m := le.m + 1, runs := le.runs ++ [(j, 1)] }
  | none => { m := le.m + 1, runs := le.runs ++ [(j, 1)] }

/-- Bracelets.restore_run_length of bracelets.py: drop the last run if
its count is 1, otherwise decrement the last count.  The source reads
lenenc[-1]; the runs list is never empty when this is called, and an
empty runs list is returned unchanged. -/
def restore_run_length (le : LenEnc) : LenEnc :=
  match le.runs.getLast? with
  | some (s, c) =>
      if c = 1 then { m := le.m - 1, runs := le.runs.dropLast }
      else { le with runs := le.runs.dropLast ++ [(s, c - 1)] }
  | none => le

/-- The while loop of Bracelets.check_rev: starting from i = 1, advance
while lenenc[i] equals lenenc[m - i + 1] and i is at most m / 2 (true
division, hence the condition 2 * i is at most m).  Returns the final
value of i.  The fuel dominates the number of iterations. -/
def check_rev_loop (fuel : Nat) (le : LenEnc) (m : Int) (i : Int) : Int :=
  match fuel with
  | 0 => i
  | fuel + 1 =>
      if lenencGet le i = lenencGet le (m - i + 1) ∧ 2 * i ≤ m then
        check_rev_loop fuel le m (i + 1)
      else i

/-- Bracelets.check_rev of bracelets.py.  The comparison in the source
line lenenc[i+1][0] < lenenc[m-i+1] compares an int to a list, which in
Python 2 is always true, so that conjunct is dropped here.  The true
divisions m / 2 appear as the conditions 2 * i over m. -/
def check_rev (le : LenEnc) : Int :=
  let m := le.m
  let i := check_rev_loop (le.runs.length + 2) le m 1
  if 2 * i > m then 0
  else if (lenencGet le i).1 < (lenencGet le (m - i + 1)).1 then 1
  else if (lenencGet le i).1 > (lenencGet le (m - i + 1)).1 then -1
  else if (lenencGet le i).2 < (lenencGet le (m - i + 1)).2
          ∨ ((lenencGet le i).2 > (lenencGet le (m - i + 1)).2
             ∧ (lenencGet le i).1 < (lenencGet le (m - i)).1) then 1
  else -1

/-- The two mutually recursive pieces of the generator: a call of
Bracelets.build_bracelets itself, or one iteration of its while loop
with loop variable j.  Folding both into one structurally recursive
function on the fuel keeps the definition kernel reducible. -/
inductive GenCall where
  | build (a : List Int) (t p r z b : Int) (RS : Bool)
  | loop (j : Int) (a : List Int) (t p r z b : Int) (RS : Bool)
deriving DecidableEq

/-- Bracelets.build_bracelets of bracelets.py, with the mutable state
(the double linked list, lenenc and the run array) threaded explicitly
and a fuel argument for termination.  The build case is the body of
build_bracelets, the loop case is one iteration of its while loop.
The list a is per frame in the source because every recursive call
receives the copy a[:].  The dead write a[t-1] = n_tot - 1 after the
while loop touches only the local copy of the frame and is not
observable, so it is omitted.  Yields are collected into the first
component of the result. -/
def gen_step : Nat → GenCall → DoubleLinkedList → LenEnc → List Int →
    List (List Int) × DoubleLinkedList × LenEnc × List Int
  | 0, _, dll, lenenc, run => ([], dll, lenenc, run)
  | fuel + 1, .build a t p r z b RS, dll, lenenc, run =>
      -- if t - 1 > r + (n_tot - r) / 2 (true division)
      let RS :=
        if 2 * (t - 1) > 2 * r + (dll.n_tot - r) then
          if pyget a (t - 2) 0 > pyget a (dll.n_tot - t + r + 1) 0 then false
          else if pyget a (t - 2) 0 < pyget a (dll.n_tot - t + r + 1) 0 then true
          else RS
        else RS
      if pyget dll.n (-1) 0 = dll.n_tot - t + 1 then
        let p := if pyget dll.n (-1) 0 > pyget run (t - p - 1) 0 then dll.n_tot else p
        let RS :=
          if pyget dll.n (-1) 0 > 0 ∧ r + 1 ≠ t then
            if (lenencGet lenenc (b + 1)).1 = dll.n_items - 1
                ∧ (lenencGet lenenc (b + 1)).2 > pyget dll.n (-1) 0 then true
            else if (lenencGet lenenc (b + 1)).1 ≠ dll.n_items - 1
                ∨ (lenencGet lenenc (b + 1)).2 < pyget dll.n (-1) 0 then false
            else RS
          else RS
        (if ¬ RS ∧ dll.n_tot = p then [a] else [], dll, lenenc, run)
      else if pyget dll.n 0 0 ≠ dll.n_tot - t + 1 then
        gen_step fuel (.loop dll.head a t p r z b RS) dll lenenc run
      else ([], dll, lenenc, run)
  | fuel + 1, .loop j a t p r z b RS, dll, lenenc, run =>
      if j ≥ pyget a (t - p - 1) 0 then
        let run1 := pyset run (z - 1) (t - z)
        let lenenc1 := update_run_length j lenenc
        let dll1 := { dll with n := pyset dll.n j (pyget dll.n j 0 - 1) }
        let dll2 := if pyget dll1.n j 0 = 0 then dll1.remove j else dll1
        let a1 := pyset a (t - 1) j
        let z2 := if j ≠ dll2.n_items - 1 then t + 1 else z
        let p2 := if j ≠ pyget a1 (t - p - 1) 0 then t else p
        let c := check_rev lenenc1
        let res :=
          if c = 0 then
            gen_step fuel (.build a1 (t + 1) p2 t z2 lenenc1.m false) dll2 lenenc1 run1
          else if c = 1 then
            gen_step fuel (.build a1 (t + 1) p2 r z2 b RS) dll2 lenenc1 run1
          else ([], dll2, lenenc1, run1)
        let dll3 := res.2.1
        let dll4 := if pyget dll3.n j 0 = 0 then dll3.add j else dll3
        let dll5 := { dll4 with n := pyset dll4.n j (pyget dll4.n j 0 + 1) }
        let lenenc3 := restore_run_length res.2.2.1
        let res2 := gen_step fuel (.loop (pyget dll5.next j 0) a1 t p r z b RS) dll5 lenenc3 res.2.2.2
        (res.1 ++ res2.1, res2.2)
      else ([], dll, lenenc, run)

/-- Bracelets.build_bracelets as a wrapper around the fueled step
function. -/
def build_bracelets (fuel : Nat) (a : List Int) (dll : DoubleLinkedList)
    (lenenc : LenEnc) (run : List Int) (t p r z b : Int) (RS : Bool) :
    List (List Int) × DoubleLinkedList × LenEnc × List Int :=
  gen_step fuel (.build a t p r z b RS) dll lenenc run

/-- One iteration of the while loop of Bracelets.build_bracelets as a
wrapper around the fueled step function. -/
def build_loop (fuel : Nat) (j : Int) (a : List Int) (dll : DoubleLinkedList)
    (lenenc : LenEnc) (run : List Int) (t p r z b : Int) (RS : Bool) :
    List (List Int) × DoubleLinkedList × LenEnc × List Int :=
  gen_step fuel (.loop j a t p r z b RS) dll lenenc run

/-- Fuel that dominates the nesting depth of build_bracelets and
build_loop: the recursion depth is bounded by n_tot and each level
runs at most n_items + 1 loop iterations. -/
def genFuel (dll : DoubleLinkedList) : Nat :=
  (dll.n_tot.toNat + 2) * (dll.n_items.toNat + 3)

/-- Bracelets.get_bracelets of bracelets.py: seed a with the placeholder
n_items - 1 everywhere, place symbol 0 at position 0, decrement its
count, remove it from the ring if exhausted, and start the recursion at
depth 2 with p = r = 1, z = 2, b = 1, RS false. -/
def get_bracelets (dll : DoubleLinkedList) :
    List (List Int) × DoubleLinkedList × LenEnc × List Int :=
  let run : List Int := List.replicate dll.n_tot.toNat 0
  let a := pyset (List.replicate dll.n_tot.toNat (dll.n_items - 1)) 0 0
  let dll1 := { dll with n := pyset dll.n 0 (pyget dll.n 0 0 - 1) }
  let lenenc : LenEnc := { m := 1, runs := [(0, 1)] }
  let dll2 := if pyget dll1.n 0 0 = 0 then dll1.remove 0 else dll1
  build_bracelets (genFuel dll) a dll2 lenenc run 2 1 1 2 1 false

/-- Python comparison of two int lists: strict less than.  Elementwise
with the shorter strict initial segment smaller. -/
def listLtb : List Int → List Int → Bool
  | [], [] => false
  | [], _ :: _ => true
  | _ :: _, [] => false
  | x :: xs, y :: ys => if x < y then true else if y < x then false else listLtb xs ys

/-- The non strict order used to model the Python sorted builtin. -/
def listLe (x y : List Int) : Prop := listLtb y x = false

instance : DecidableRel listLe := fun x y => by
  unfold listLe; infer_instance

/-- Bracelets.__init__ of bracelets.py builds the double linked list
from the components and sorts the generated bracelets.  sorted in
Python is a stable sort along the list order; on int lists any sort
along listLe produces the same result. -/
def braceletsOf (components : List Int) : List (List Int) :=
  List.insertionSort listLe (get_bracelets (DoubleLinkedList.make components)).1

/-- The inner loop of Bracelets.as_tuple: run length compress the tail
of a bracelet starting from the accumulator pair (curr, n). -/
def compressAux : List Int → Int → Int → List (Int × Int)
  | [], curr, n => [(curr, n)]
  | x :: rest, curr, n =>
      if x = curr then compressAux rest curr (n + 1)
      else (curr, n) :: compressAux rest x 1

/-- Bracelets.as_tuple of bracelets.py for one bracelet: the loop runs
over brac[1:] with curr = 0 and n = 1, so the head of the bracelet is
assumed to be the symbol 0. -/
def compressRLE (brac : List Int) : List (Int × Int) :=
  compressAux (brac.drop 1) 0 1

/-- Bracelets.as_tuple of bracelets.py over the sorted bracelet list. -/
def asTupleOf (components : List Int) : List (List (Int × Int)) :=
  (braceletsOf components).map compressRLE

/-- Expansion of a run length form: repeat each symbol its recorded
count of times, in order. -/
def expandRLE (ts : List (Int × Int)) : List Int :=
  ts.flatMap (fun sc => List.replicate sc.2.toNat sc.1)

/-! ### The run length state: restore undoes update -/

/-- Invariant of the lenenc state: the runs list is nonempty and every
run count is at least 1. -/
def LenEncOK (le : LenEnc) : Prop :=
  le.runs ≠ [] ∧ ∀ sc ∈ le.runs, 1 ≤ sc.2

/-! ### Well formedness of the availability ring -/

/-- The largest index below j whose remaining count is positive, or -1
if there is none. -/
def maxAvailBelow (n : List Int) : Nat → Int
  | 0 => -1
  | j + 1 => if 0 < n.getD j 0 then (j : Int) else maxAvailBelow n j

/-- Helper for minAvailAbove: scan c positions upward from s and return
the first one with positive count. -/
def minAvailAboveAux (n : List Int) : Nat → Nat → Option Nat
  | _, 0 => none
  | s, c + 1 => if 0 < n.getD s 0 then some s else minAvailAboveAux n (s + 1) c

/-- The smallest index i with j < i < k whose remaining count is
positive, or k if there is none. -/
def minAvailAbove (n : List Int) (k j : Nat) : Int :=
  match minAvailAboveAux n (j + 1) (k - (j + 1)) with
  | some i => (i : Int)
  | none => (k : Int)

/-- Follow next links from a node, collecting the visited symbol
indices; the walk stops when the link leaves the symbol range and the
fuel bounds its length. -/
def traverseFrom (next : List Int) (k : Nat) : Nat → Int → List Int
  | 0, _ => []
  | fuel + 1, j =>
      if 0 ≤ j ∧ j < (k : Int) then j :: traverseFrom next k fuel (pyget next j 0)
      else []

/-- The sequence of symbols reached by following next links from the
head of the ring. -/
def ringMembers (dll : DoubleLinkedList) : List Int :=
  traverseFrom dll.next dll.n_items.toNat (dll.n_items.toNat + 1) dll.head

/-- The symbols below i with positive remaining count, in descending
order. -/
def availDesc (n : List Int) : Nat → List Int
  | 0 => []
  | i + 1 => if 0 < n.getD i 0 then (i : Int) :: availDesc n i else availDesc n i

/-- Well formedness of the double linked list with respect to its own
counts: the head is the largest available symbol, next of any available
node and of the sentinel is the largest available symbol below it, and
prev of any available node is the smallest available symbol above it,
or n_items when there is none.  The links of unavailable nodes are
unconstrained: they hold stale values that only matter to the matching
add call. -/
def WF (k : Nat) (dll : DoubleLinkedList) : Prop :=
  dll.n_items = (k : Int)
  ∧ dll.n.length = k
  ∧ dll.next.length = k + 1
  ∧ dll.prev.length = k + 1
  ∧ dll.head = maxAvailBelow dll.n k
  ∧ (∀ j : Nat, j < k + 1 → (j = k ∨ 0 < dll.n.getD j 0) →
      dll.next.getD j 0 = maxAvailBelow dll.n j)
  ∧ (∀ j : Nat, j < k → 0 < dll.n.getD j 0 →
      dll.prev.getD j 0 = minAvailAbove dll.n k j)

/-- Invariant carried through the generator recursion at a build call:
the ring is well formed, the counts of the placed prefix of a
complement the remaining counts, the tail of a holds the placeholder
n_items - 1 and the bookkeeping quantities are in range. -/
structure GenInv (k : Nat) (c a : List Int) (dll : DoubleLinkedList)
    (lenenc : LenEnc) (t p : Int) : Prop where
  wf : WF k dll
  k2 : 2 ≤ k
  clen : c.length = k
  ntot : dll.n_tot = c.sum
  tlow : 2 ≤ t
  thigh : t ≤ c.sum + 1
  plow : 1 ≤ p
  phigh : p ≤ t - 1
  alen : (a.length : Int) = c.sum
  abound : ∀ i : Nat, i < a.length → 0 ≤ a.getD i 0 ∧ a.getD i 0 ≤ (k : Int) - 1
  atail : ∀ i : Nat, t - 1 ≤ (i : Int) → i < a.length → a.getD i 0 = (k : Int) - 1
  counts : ∀ i : Nat, i < k →
    ((a.take (t - 1).toNat).count (i : Int) : Int) + dll.n.getD i 0 = c.getD i 0
  nonneg : ∀ i : Nat, i < k → 0 ≤ dll.n.getD i 0
  nsum : dll.n.sum = c.sum - (t - 1)
  lok : LenEncOK lenenc

/-- Invariant carried at a loop iteration: as GenInv, except that the
slot t - 1 of a may hold the symbol of a previous iteration, and the
loop variable j is the head of an available suffix of the ring. -/
structure LoopInv (k : Nat) (c a : List Int) (dll : DoubleLinkedList)
    (lenenc : LenEnc) (t p j : Int) : Prop where
  wf : WF k dll
  k2 : 2 ≤ k
  clen : c.length = k
  ntot : dll.n_tot = c.sum
  tlow : 2 ≤ t
  thigh : t ≤ c.sum
  plow : 1 ≤ p
  phigh : p ≤ t - 1
  alen : (a.length : Int) = c.sum
  abound : ∀ i : Nat, i < a.length → 0 ≤ a.getD i 0 ∧ a.getD i 0 ≤ (k : Int) - 1
  atail : ∀ i : Nat, t ≤ (i : Int) → i < a.length → a.getD i 0 = (k : Int) - 1
  counts : ∀ i : Nat, i < k →
    ((a.take (t - 1).toNat).count (i : Int) : Int) + dll.n.getD i 0 = c.getD i 0
  nonneg : ∀ i : Nat, i < k → 0 ≤ dll.n.getD i 0
  nsum : dll.n.sum = c.sum - (t - 1)
  lok : LenEncOK lenenc
  jvalid : j = -1 ∨ (0 ≤ j ∧ j < (k : Int) ∧ 0 < dll.n.getD j.toNat 0)

/-- The state restoration property of the recursion: the counts, the
next links and the head come back exactly, the prev links come back
below the sentinel slot, and lenenc is restored. -/
def StateOK (k : Nat) (dll : DoubleLinkedList) (lenenc : LenEnc)
    (dll2 : DoubleLinkedList) (lenenc2 : LenEnc) : Prop :=
  dll2.n = dll.n ∧ dll2.next = dll.next ∧ dll2.head = dll.head
  ∧ dll2.n_items = dll.n_items ∧ dll2.n_tot = dll.n_tot
  ∧ dll2.prev.length = dll.prev.length
  ∧ (∀ i : Nat, i < k → dll2.prev.getD i 0 = dll.prev.getD i 0)
  ∧ lenenc2 = lenenc

/-- The output property of the recursion: every emitted sequence has
full length, extends the current prefix, and realizes the content
exactly; the emitted list is strictly decreasing in the list order. -/
def OutsOK (k : Nat) (c a : List Int) (t : Int) (outs : List (List Int)) : Prop :=
  (∀ x ∈ outs,
    x.length = a.length
    ∧ x.take (t - 1).toNat = a.take (t - 1).toNat
    ∧ (∀ i : Nat, i < k → ((x.count (i : Int) : Int) = c.getD i 0)))
  ∧ outs.Pairwise (fun x y => listLtb y x = true)


/-! ### The Isomers collaborator of ferecrystal_isomers.py -/

/-- A Python value as it can appear in a composition list: an int or a
value of another type (the validation only distinguishes the two). -/
inductive PyObj where
  | pyint (n : Int)
  | pystr (s : String)
  | pynone
deriving DecidableEq, Repr

/-- The Python exceptions the embedded code can raise. -/
inductive PyErr where
  | typeError (msg : String)
  | valueError (msg : String)
  | nameError (msg : String)
  | indexError (msg : String)
deriving DecidableEq, Repr

def isIntObj : PyObj → Bool
  | .pyint _ => true
  | _ => false

/-- The for loop of Isomers.__init__ over the composition: the first
entry that is not an int raises TypeError. -/
def check_int_entries : List PyObj → Except PyErr Unit
  | [] => .ok ()
  | x :: rest =>
      if isIntObj x then check_int_entries rest
      else .error (.typeError "Values must be a integers.")

/-- The for loop of Isomers.__init__ over elements[:-1]: an element that
appears more than once raises ValueError. -/
def check_dup_loop (es : List String) : List String → Except PyErr Unit
  | [] => .ok ()
  | x :: rest =>
      if 1 < es.count x then
        .error (.valueError "Element list contains duplicates.")
      else check_dup_loop es rest

/-- The validation of Isomers.__init__ (ferecrystal_isomers.py lines
41 to 61).  The composition arrives as a Lean list, so the isinstance
list-or-tuple test always passes; the remaining checks are the length
bounds, the per entry int test and, when an element list is given, the
size and duplicate tests.  The length test of Bracelets.__init__ run
afterwards is subsumed by the first check here.  No check inspects the
multiplicity values themselves. -/
def isomers_init_validate (composition : List PyObj)
    (elements : Option (List String)) : Except PyErr Unit :=
  if composition.length < 2 then
    .error (.valueError "Composition must have at least 2 items.")
  else if 26 < composition.length then
    .error (.valueError "Composition cannot have more than 26 items.")
  else
    match check_int_entries composition with
    | .error e => .error e
    | .ok _ =>
        match elements with
        | none => .ok ()
        | some es =>
            if composition.length ≠ es.length then
              .error (.valueError "Elements must be of the same size as composition.")
            else check_dup_loop es es.dropLast

/-- Python indexing of a string list: a negative index wraps once, an
index out of range raises IndexError. -/
def pygetStr (xs : List String) (i : Int) : Except PyErr String :=
  let j := if i < 0 then i + xs.length else i
  if h : 0 ≤ j ∧ j < xs.length then .ok (xs.get ⟨j.toNat, by omega⟩)
  else .error (.indexError "list index out of range")

/-- The inner list comprehension of Isomers._as_tuples for one bracelet:
self._elements[t[0]] for each run (symbol, count).  When elements is
None the subscript raises TypeError at the first run. -/
def as_tuples_brac (elements : Option (List String)) :
    List (Int × Int) → Except PyErr (List (String × Int))
  | [] => .ok []
  | t :: rest =>
      match elements with
      | none => .error (.typeError "NoneType object is not subscriptable")
      | some es =>
          match pygetStr es t.1 with
          | .error e => .error e
          | .ok s =>
              match as_tuples_brac elements rest with
              | .error e => .error e
              | .ok r => .ok ((s, t.2) :: r)

/-- Isomers._as_tuples over the full bracelet tuple list. -/
def as_tuples (elements : Option (List String)) :
    List (List (Int × Int)) → Except PyErr (List (List (String × Int)))
  | [] => .ok []
  | b :: rest =>
      match as_tuples_brac elements b with
      | .error e => .error e
      | .ok ib =>
          match as_tuples elements rest with
          | .error e => .error e
          | .ok r => .ok (ib :: r)

/-- Isomers._isomers_from_tuples: format each isomer as
(name)count-(name)count-... -/
def isomers_from_tuples (isomers : List (List (String × Int))) : List String :=
  isomers.map (fun iso =>
    String.intercalate "-" (iso.map (fun t => "(" ++ t.1 ++ ")" ++ toString t.2)))

/-- Isomers.get_isomer_subset with both condition arguments left at
their default None: line 278 converts all bracelets with _as_tuples,
both filters are skipped, and the result is formatted with
_isomers_from_tuples. -/
def get_isomer_subset_defaults (composition : List Int)
    (elements : Option (List String)) : Except PyErr (List String) :=
  match as_tuples elements (asTupleOf composition) with
  | .error e => .error e
  | .ok ts => .ok (isomers_from_tuples ts)

/-! ### Basic lemmas about the Python indexing helpers -/

theorem getD_set_self {xs : List Int} {i : Nat} (v d : Int) (h : i < xs.length) :
    (xs.set i v).getD i d = v := by
  simp [List.getD_eq_getElem?_getD, List.getElem?_set, h]

theorem getD_set_ne {xs : List Int} {i j : Nat} (v d : Int) (h : i ≠ j) :
    (xs.set i v).getD j d = xs.getD j d := by
  simp [List.getD_eq_getElem?_getD, List.getElem?_set, h]

theorem set_getD_self {xs : List Int} {i : Nat} {v : Int} (h : i < xs.length)
    (hv : xs.getD i 0 = v) : xs.set i v = xs := by
  induction xs generalizing i with
  | nil => simp
  | cons x xs ih =>
      cases i with
      | zero => simp_all [List.getD]
      | succ i =>
          simp only [List.set_cons_succ, List.cons.injEq, true_and]
          exact ih (by simpa using h) (by simpa [List.getD] using hv)

theorem sum_set_int {xs : List Int} {i : Nat} (v : Int) (h : i < xs.length) :
    (xs.set i v).sum = xs.sum - xs.getD i 0 + v := by
  induction xs generalizing i with
  | nil => simp at h
  | cons x xs ih =>
      cases i with
      | zero => simp [List.getD]; ring
      | succ i =>
          have hx := ih (by simpa using h)
          have hg : (x :: xs).getD (i + 1) 0 = xs.getD i 0 := rfl
          simp only [List.set_cons_succ, List.sum_cons, hg]
          rw [hx]; ring

theorem pyget_coe (xs : List Int) (i : Nat) (d : Int) (h : i < xs.length) :
    pyget xs (i : Int) d = xs.getD i d := by
  simp only [pyget]
  rw [if_neg (by omega : ¬ ((i : Int) < 0))]
  rw [if_pos (by exact ⟨by omega, by exact_mod_cast h⟩)]
  simp

theorem pyget_neg_one (xs : List Int) (d : Int) (h : xs ≠ []) :
    pyget xs (-1) d = xs.getD (xs.length - 1) d := by
  have hl : 0 < xs.length := List.length_pos.mpr h
  simp only [pyget]
  rw [if_pos (by omega : (-1 : Int) < 0)]
  rw [if_pos (by constructor <;> omega)]
  congr 1
  omega

theorem pyset_coe (xs : List Int) (i : Nat) (v : Int) (h : i < xs.length) :
    pyset xs (i : Int) v = xs.set i v := by
  simp only [pyset]
  rw [if_neg (by omega : ¬ ((i : Int) < 0))]
  rw [if_pos (by exact ⟨by omega, by exact_mod_cast h⟩)]
  simp

theorem pyset_neg_one (xs : List Int) (v : Int) (h : xs ≠ []) :
    pyset xs (-1) v = xs.set (xs.length - 1) v := by
  have hl : 0 < xs.length := List.length_pos.mpr h
  simp only [pyset]
  rw [if_pos (by omega : (-1 : Int) < 0)]
  rw [if_pos (by constructor <;> omega)]
  congr 1
  omega

theorem pyset_length (xs : List Int) (i v : Int) :
    (pyset xs i v).length = xs.length := by
  simp only [pyset]
  split_ifs <;> simp

/-! ### The Python order on int lists -/

theorem listLtb_cons_lt {a b : Int} (x y : List Int) (h : a < b) :
    listLtb (a :: x) (b :: y) = true := by
  simp only [listLtb]
  rw [if_pos h]

theorem listLtb_cons_gt {a b : Int} (x y : List Int) (h : b < a) :
    listLtb (a :: x) (b :: y) = false := by
  simp only [listLtb]
  rw [if_neg (by omega : ¬ a < b), if_pos h]

theorem listLtb_cons_same (a : Int) (x y : List Int) :
    listLtb (a :: x) (a :: y) = listLtb x y := by
  simp only [listLtb]
  rw [if_neg (by omega : ¬ a < a), if_neg (by omega : ¬ a < a)]

theorem listLtb_irrefl (x : List Int) : listLtb x x = false := by
  induction x with
  | nil => rfl
  | cons a x ih => rw [listLtb_cons_same, ih]

theorem listLtb_not_both (x y : List Int) :
    listLtb x y = true → listLtb y x = true → False := by
  induction x generalizing y with
  | nil =>
      cases y with
      | nil => intro h; cases h
      | cons b y => intro _ h; cases h
  | cons a x ih =>
      cases y with
      | nil => intro h; cases h
      | cons b y =>
          rcases lt_trichotomy a b with h | h | h
          · rw [listLtb_cons_gt y x h]
            intro _ hc; cases hc
          · subst h
            rw [listLtb_cons_same, listLtb_cons_same]
            exact ih y
          · rw [listLtb_cons_gt x y h]
            intro hc; cases hc

theorem listLtb_eq_of_not (x y : List Int) :
    listLtb x y = false → listLtb y x = false → x = y := by
  induction x generalizing y with
  | nil =>
      cases y with
      | nil => intro _ _; rfl
      | cons b y => intro h; cases h
  | cons a x ih =>
      cases y with
      | nil => intro _ h; cases h
      | cons b y =>
          rcases lt_trichotomy a b with h | h | h
          · rw [listLtb_cons_lt x y h]
            intro hc; cases hc
          · subst h
            rw [listLtb_cons_same, listLtb_cons_same]
            intro h1 h2
            rw [ih y h1 h2]
          · rw [listLtb_cons_lt y x h]
            intro _ hc; cases hc

theorem listLtb_connected (x y z : List Int) :
    listLtb z x = true → listLtb z y = true ∨ listLtb y x = true := by
  induction z generalizing x y with
  | nil =>
      cases x with
      | nil => intro h; cases h
      | cons a x =>
          cases y with
          | nil => intro _; right; rfl
          | cons b y => intro _; left; rfl
  | cons c z ih =>
      cases x with
      | nil => intro h; cases h
      | cons a x =>
          cases y with
          | nil => intro _; right; rfl
          | cons b y =>
              intro hzx
              rcases lt_trichotomy c b with hcb | hcb | hcb
              · left; exact listLtb_cons_lt z y hcb
              · subst hcb
                rcases lt_trichotomy c a with hca | hca | hca
                · right; exact listLtb_cons_lt y x hca
                · subst hca
                  rw [listLtb_cons_same] at hzx
                  rcases ih x y hzx with h | h
                  · left; rw [listLtb_cons_same]; exact h
                  · right; rw [listLtb_cons_same]; exact h
                · rw [listLtb_cons_gt z x hca] at hzx; cases hzx
              · rcases lt_trichotomy c a with hca | hca | hca
                · right
                  exact listLtb_cons_lt y x (by omega)
                · subst hca
                  right
                  exact listLtb_cons_lt y x hcb
                · rw [listLtb_cons_gt z x hca] at hzx; cases hzx

instance : IsTotal (List Int) listLe := by
  constructor
  intro x y
  unfold listLe
  by_cases h : listLtb y x = true
  · right
    cases hxy : listLtb x y with
    | false => rfl
    | true => exact absurd (listLtb_not_both _ _ hxy h) not_false
  · left
    simpa using h

instance : IsTrans (List Int) listLe := by
  constructor
  intro x y z hxy hyz
  unfold listLe at *
  cases hzx : listLtb z x with
  | false => rfl
  | true =>
      rcases listLtb_connected x y z hzx with h | h
      · rw [hyz] at h; cases h
      · rw [hxy] at h; cases h

theorem listLtb_of_take_eq (m : Nat) (x y : List Int) (hx : m < x.length)
    (hy : m < y.length) (ht : x.take m = y.take m)
    (hlt : x.getD m 0 < y.getD m 0) : listLtb x y = true := by
  induction m generalizing x y with
  | zero =>
      cases x with
      | nil => simp at hx
      | cons a x =>
          cases y with
          | nil => simp at hy
          | cons b y =>
              simp [List.getD] at hlt
              simp [listLtb, hlt]
  | succ m ih =>
      cases x with
      | nil => simp at hx
      | cons a x =>
          cases y with
          | nil => simp at hy
          | cons b y =>
              simp only [List.take_succ_cons, List.cons.injEq] at ht
              obtain ⟨rfl, htl⟩ := ht
              rw [listLtb_cons_same]
              exact ih x y (by simpa using hx) (by simpa using hy)
                htl (by simpa [List.getD] using hlt)

/-! ### Run length compress and expand -/

theorem expand_compressAux (rest : List Int) (curr n : Int) (hn : 1 ≤ n) :
    expandRLE (compressAux rest curr n) = List.replicate n.toNat curr ++ rest := by
  induction rest generalizing curr n with
  | nil => simp [compressAux, expandRLE]
  | cons x rest ih =>
      by_cases hx : x = curr
      · subst hx
        have hstep : compressAux (x :: rest) x n = compressAux rest x (n + 1) := by
          rw [compressAux]
          rw [if_pos rfl]
        rw [hstep, ih x (n + 1) (by omega)]
        have : (n + 1).toNat = n.toNat + 1 := by omega
        rw [this, List.replicate_succ']
        simp
      · have hstep : compressAux (x :: rest) curr n
            = (curr, n) :: compressAux rest x 1 := by
          rw [compressAux]
          rw [if_neg hx]
        rw [hstep]
        simp only [expandRLE, List.flatMap_cons] at *
        rw [ih x 1 (by omega)]
        simp

theorem expand_compressRLE (l : List Int) (h : l.head? = some 0) :
    expandRLE (compressRLE l) = l := by
  cases l with
  | nil => simp at h
  | cons a l =>
      simp only [List.head?_cons, Option.some.injEq] at h
      subst h
      simp only [compressRLE, List.drop_one, List.tail_cons]
      rw [expand_compressAux l 0 1 (by omega)]
      simp

theorem compressAux_ne_nil (rest : List Int) (curr n : Int) :
    compressAux rest curr n ≠ [] := by
  induction rest generalizing curr n with
  | nil => simp [compressAux]
  | cons x rest ih =>
      simp only [compressAux]
      split
      · exact ih _ _
      · simp

theorem restore_update (le : LenEnc) (j : Int) (h : LenEncOK le) :
    restore_run_length (update_run_length j le) = le := by
  obtain ⟨m0, runs0⟩ := le
  obtain ⟨hne, hcts⟩ := h
  simp only at hne hcts
  obtain ⟨init, s, c, rfl⟩ : ∃ init s c, runs0 = init ++ [(s, c)] := by
    rcases List.eq_nil_or_concat runs0 with h | ⟨init, sc, h⟩
    · exact absurd h hne
    · exact ⟨init, sc.1, sc.2, by simpa using h⟩
  have hc : 1 ≤ c := hcts (s, c) (by simp)
  simp only [update_run_length, List.getLast?_concat]
  by_cases hs : s = j
  · rw [if_pos hs]
    simp only [restore_run_length, List.dropLast_concat, List.getLast?_concat]
    simp [show ¬ (c + 1 = 1) from by omega, show c + 1 - 1 = c from by omega]
  · rw [if_neg hs]
    simp only [restore_run_length]
    rw [show init ++ [(s, c)] ++ [(j, 1)] = (init ++ [(s, c)]) ++ [(j, 1)] from rfl]
    simp only [List.getLast?_concat, List.dropLast_concat]
    simp

theorem update_LenEncOK (le : LenEnc) (j : Int) (h : LenEncOK le) :
    LenEncOK (update_run_length j le) := by
  obtain ⟨m0, runs0⟩ := le
  obtain ⟨hne, hcts⟩ := h
  simp only at hne hcts
  obtain ⟨init, s, c, rfl⟩ : ∃ init s c, runs0 = init ++ [(s, c)] := by
    rcases List.eq_nil_or_concat runs0 with h | ⟨init, sc, h⟩
    · exact absurd h hne
    · exact ⟨init, sc.1, sc.2, by simpa using h⟩
  have hc : 1 ≤ c := hcts (s, c) (by simp)
  simp only [update_run_length, List.getLast?_concat]
  by_cases hs : s = j
  · rw [if_pos hs]
    refine ⟨by simp, ?_⟩
    intro sc hsc
    simp only [List.dropLast_concat] at hsc
    rcases List.mem_append.mp hsc with h | h
    · exact hcts _ (List.mem_append.mpr (Or.inl h))
    · simp only [List.mem_singleton] at h
      subst h
      simpa using by omega
  · rw [if_neg hs]
    refine ⟨by simp, ?_⟩
    intro sc hsc
    rcases List.mem_append.mp hsc with h | h
    · exact hcts _ h
    · simp only [List.mem_singleton] at h
      subst h
      simp

theorem maxAvailBelow_cases (n : List Int) (j : Nat) :
    maxAvailBelow n j = -1
    ∨ (0 ≤ maxAvailBelow n j ∧ maxAvailBelow n j < j
        ∧ 0 < n.getD (maxAvailBelow n j).toNat 0) := by
  induction j with
  | zero => left; rfl
  | succ j ih =>
      by_cases h : 0 < n.getD j 0
      · right
        rw [maxAvailBelow, if_pos h]
        refine ⟨by omega, by omega, by simpa using h⟩
      · rw [maxAvailBelow, if_neg h]
        rcases ih with h1 | h1
        · left; exact h1
        · right; exact ⟨h1.1, by omega, h1.2.2⟩

theorem maxAvailBelow_max (n : List Int) (j : Nat) (i : Nat) (hij : i < j)
    (hgt : maxAvailBelow n j < (i : Int)) : ¬ 0 < n.getD i 0 := by
  induction j with
  | zero => omega
  | succ j ih =>
      by_cases h : 0 < n.getD j 0
      · rw [maxAvailBelow, if_pos h] at hgt
        omega
      · rw [maxAvailBelow, if_neg h] at hgt
        rcases Nat.lt_succ_iff_lt_or_eq.mp hij with h2 | h2
        · exact ih h2 hgt
        · subst h2; exact h

theorem maxAvailBelow_unique (n : List Int) (j : Nat) (v : Int)
    (h1 : v = -1 ∨ (0 ≤ v ∧ v < j ∧ 0 < n.getD v.toNat 0))
    (h2 : ∀ i : Nat, i < j → v < (i : Int) → ¬ 0 < n.getD i 0) :
    maxAvailBelow n j = v := by
  induction j with
  | zero =>
      rcases h1 with rfl | h1
      · rfl
      · omega
  | succ j ih =>
      by_cases h : 0 < n.getD j 0
      · rw [maxAvailBelow, if_pos h]
        by_contra hne
        have hvj : v < j ∨ (j : Int) < v := by
          rcases h1 with rfl | h1 <;> omega
        rcases hvj with hv | hv
        · exact h2 j (by omega) hv h
        · omega
      · rw [maxAvailBelow, if_neg h]
        apply ih
        · rcases h1 with rfl | h1
          · left; rfl
          · right
            refine ⟨h1.1, ?_, h1.2.2⟩
            rcases lt_or_eq_of_le (by omega : v ≤ (j : Int)) with hv | hv
            · omega
            · exfalso
              have hvj : v.toNat = j := by omega
              rw [hvj] at h1
              exact h h1.2.2
        · intro i hi hvi
          exact h2 i (by omega) hvi

theorem minAvailAboveAux_cases (n : List Int) (s c : Nat) :
    minAvailAboveAux n s c = none
    ∨ (∃ i : Nat, minAvailAboveAux n s c = some i ∧ s ≤ i ∧ i < s + c
        ∧ 0 < n.getD i 0) := by
  induction c generalizing s with
  | zero => left; rfl
  | succ c ih =>
      by_cases h : 0 < n.getD s 0
      · right
        exact ⟨s, by rw [minAvailAboveAux, if_pos h], le_refl s, by omega, h⟩
      · rw [minAvailAboveAux, if_neg h]
        rcases ih (s + 1) with h1 | ⟨i, h1, h2, h3, h4⟩
        · left; exact h1
        · right; exact ⟨i, h1, by omega, by omega, h4⟩

theorem minAvailAboveAux_min (n : List Int) (s c : Nat) (i : Nat) (hsi : s ≤ i)
    (hlt : ∀ v : Nat, minAvailAboveAux n s c = some v → i < v)
    (hic : i < s + c) : ¬ 0 < n.getD i 0 := by
  induction c generalizing s with
  | zero => omega
  | succ c ih =>
      by_cases h : 0 < n.getD s 0
      · have := hlt s (by rw [minAvailAboveAux, if_pos h])
        omega
      · rcases Nat.lt_or_ge s i with h2 | h2
        · apply ih (s + 1) h2
          · intro v hv
            apply hlt
            rw [minAvailAboveAux, if_neg h]
            exact hv
          · omega
        · have : s = i := by omega
          subst this
          exact h

theorem minAvailAboveAux_none (n : List Int) (s c : Nat) (i : Nat) (hsi : s ≤ i)
    (hnone : minAvailAboveAux n s c = none) (hic : i < s + c) :
    ¬ 0 < n.getD i 0 := by
  apply minAvailAboveAux_min n s c i hsi _ hic
  intro v hv
  rw [hnone] at hv
  cases hv

theorem minAvailAboveAux_unique (n : List Int) (s c : Nat) (v : Nat)
    (hsv : s ≤ v) (hvc : v < s + c) (hava : 0 < n.getD v 0)
    (hmin : ∀ i : Nat, s ≤ i → i < v → ¬ 0 < n.getD i 0) :
    minAvailAboveAux n s c = some v := by
  induction c generalizing s with
  | zero => omega
  | succ c ih =>
      by_cases h : 0 < n.getD s 0
      · rw [minAvailAboveAux, if_pos h]
        have : ¬ s < v := fun hc => hmin s (le_refl s) hc h
        have : s = v := by omega
        rw [this]
      · rw [minAvailAboveAux, if_neg h]
        have hsv2 : s + 1 ≤ v := by
          rcases Nat.lt_or_ge s v with h2 | h2
          · omega
          · have : s = v := by omega
            subst this
            exact absurd hava h
        exact ih (s + 1) hsv2 (by omega) (fun i hi hiv => hmin i (by omega) hiv)

theorem minAvailAbove_cases (n : List Int) (k j : Nat) :
    minAvailAbove n k j = (k : Int)
    ∨ ((j : Int) < minAvailAbove n k j ∧ minAvailAbove n k j < k
        ∧ 0 < n.getD (minAvailAbove n k j).toNat 0) := by
  unfold minAvailAbove
  rcases minAvailAboveAux_cases n (j + 1) (k - (j + 1)) with h | ⟨i, h, h1, h2, h3⟩
  · left; simp [h]
  · right
    simp only [h]
    refine ⟨by omega, by omega, by simpa using h3⟩

theorem minAvailAbove_min (n : List Int) (k j : Nat) (i : Nat) (hji : j < i)
    (hlt : (i : Int) < minAvailAbove n k j) : ¬ 0 < n.getD i 0 := by
  unfold minAvailAbove at hlt
  rcases minAvailAboveAux_cases n (j + 1) (k - (j + 1)) with h | ⟨v, h, h1, h2, h3⟩
  · simp only [h] at hlt
    exact minAvailAboveAux_none n (j + 1) (k - (j + 1)) i (by omega) h (by omega)
  · simp only [h] at hlt
    apply minAvailAboveAux_min n (j + 1) (k - (j + 1)) i (by omega) _ (by omega)
    intro v2 hv2
    rw [h] at hv2
    cases hv2
    omega

theorem minAvailAbove_unique (n : List Int) (k j : Nat) (v : Int)
    (h1 : v = (k : Int) ∨ ((j : Int) < v ∧ v < k ∧ 0 < n.getD v.toNat 0))
    (h2 : ∀ i : Nat, j < i → (i : Int) < v → i < k → ¬ 0 < n.getD i 0) :
    minAvailAbove n k j = v := by
  unfold minAvailAbove
  rcases h1 with rfl | ⟨hjv, hvk, hava⟩
  · rcases minAvailAboveAux_cases n (j + 1) (k - (j + 1)) with h | ⟨i, h, hi1, hi2, hi3⟩
    · simp [h]
    · exfalso
      exact h2 i (by omega) (by omega) (by omega) hi3
  · rw [minAvailAboveAux_unique n (j + 1) (k - (j + 1)) v.toNat (by omega) (by omega)
        (by simpa using hava)
        (fun i hi hiv => h2 i (by omega) (by omega) (by omega))]
    simp only []
    omega

theorem maxAvailBelow_bounds (n : List Int) (j : Nat) :
    -1 ≤ maxAvailBelow n j ∧ maxAvailBelow n j < j := by
  rcases maxAvailBelow_cases n j with h | h
  · rw [h]; constructor <;> omega
  · constructor <;> omega

theorem maxAvailBelow_ge_of_avail (n : List Int) (j i : Nat) (hij : i < j)
    (hav : 0 < n.getD i 0) : (i : Int) ≤ maxAvailBelow n j := by
  by_contra h
  exact maxAvailBelow_max n j i hij (by omega) hav

theorem minAvailAbove_bounds (n : List Int) (k j : Nat) :
    (j : Int) < minAvailAbove n k j ∨ minAvailAbove n k j = k := by
  rcases minAvailAbove_cases n k j with h | h
  · right; exact h
  · left; exact h.1

theorem minAvailAbove_le (n : List Int) (k j : Nat) :
    minAvailAbove n k j ≤ (k : Int) := by
  rcases minAvailAbove_cases n k j with h | h
  · omega
  · omega

theorem minAvailAbove_le_of_avail (n : List Int) (k j i : Nat) (hji : j < i)
    (hik : i < k) (hav : 0 < n.getD i 0) : minAvailAbove n k j ≤ (i : Int) := by
  by_contra h
  exact minAvailAbove_min n k j i hji (by omega) hav

theorem maxAvailBelow_congr {n n2 : List Int} (j : Nat)
    (h : ∀ i : Nat, i < j → (0 < n.getD i 0 ↔ 0 < n2.getD i 0)) :
    maxAvailBelow n j = maxAvailBelow n2 j := by
  induction j with
  | zero => rfl
  | succ j ih =>
      rw [maxAvailBelow, maxAvailBelow]
      by_cases hj : 0 < n.getD j 0
      · rw [if_pos hj, if_pos ((h j (by omega)).mp hj)]
      · rw [if_neg hj, if_neg (fun hc => hj ((h j (by omega)).mpr hc))]
        exact ih (fun i hi => h i (by omega))

theorem minAvailAboveAux_congr {n n2 : List Int} (s c : Nat)
    (h : ∀ i : Nat, s ≤ i → i < s + c → (0 < n.getD i 0 ↔ 0 < n2.getD i 0)) :
    minAvailAboveAux n s c = minAvailAboveAux n2 s c := by
  induction c generalizing s with
  | zero => rfl
  | succ c ih =>
      rw [minAvailAboveAux, minAvailAboveAux]
      by_cases hs : 0 < n.getD s 0
      · rw [if_pos hs, if_pos ((h s (le_refl s) (by omega)).mp hs)]
      · rw [if_neg hs, if_neg (fun hc => hs ((h s (le_refl s) (by omega)).mpr hc))]
        exact ih (s + 1) (fun i hi1 hi2 => h i (by omega) (by omega))

theorem minAvailAbove_congr {n n2 : List Int} (k j : Nat)
    (h : ∀ i : Nat, j < i → i < k → (0 < n.getD i 0 ↔ 0 < n2.getD i 0)) :
    minAvailAbove n k j = minAvailAbove n2 k j := by
  unfold minAvailAbove
  rw [minAvailAboveAux_congr (j + 1) (k - (j + 1))
    (fun i hi1 hi2 => h i (by omega) (by omega))]

theorem pyget_int (xs : List Int) (i : Int) (d : Int) (h0 : 0 ≤ i)
    (h1 : i < xs.length) : pyget xs i d = xs.getD i.toNat d := by
  simp only [pyget]
  rw [if_neg (by omega : ¬ i < 0)]
  rw [if_pos ⟨h0, h1⟩]

theorem pyset_int (xs : List Int) (i : Int) (v : Int) (h0 : 0 ≤ i)
    (h1 : i < xs.length) : pyset xs i v = xs.set i.toNat v := by
  simp only [pyset]
  rw [if_neg (by omega : ¬ i < 0)]
  rw [if_pos ⟨h0, h1⟩]

theorem getD_range_map (f : Nat → Int) (m j : Nat) (hj : j < m) :
    ((List.range m).map f).getD j 0 = f j := by
  simp [List.getD_eq_getElem?_getD, List.getElem?_range, hj]

theorem make_WF (c : List Int) (hpos : ∀ i : Nat, i < c.length → 0 < c.getD i 0) :
    WF c.length (DoubleLinkedList.make c) := by
  refine ⟨rfl, rfl, ?_, ?_, ?_, ?_, ?_⟩
  · show ((List.range (c.length + 1)).map fun i : Nat => (i : Int) - 1).length = c.length + 1
    rw [List.length_map, List.length_range]
  · show ((List.range (c.length + 1)).map fun i : Nat => (i : Int) + 1).length = c.length + 1
    rw [List.length_map, List.length_range]
  · show (c.length : Int) - 1 = maxAvailBelow c c.length
    symm
    apply maxAvailBelow_unique
    · cases hk : c.length with
      | zero => left; simp [hk]
      | succ k0 =>
          right
          refine ⟨by omega, by omega, ?_⟩
          have hp := hpos k0 (by omega)
          have hto : (((k0 + 1 : Nat) : Int) - 1).toNat = k0 := by omega
          rw [hto]
          exact hp
    · intro i hi hvi
      omega
  · intro j hj hava
    show ((List.range (c.length + 1)).map fun i : Nat => (i : Int) - 1).getD j 0
        = maxAvailBelow c j
    rw [getD_range_map _ _ _ hj]
    symm
    apply maxAvailBelow_unique
    · cases hj0 : j with
      | zero => left; simp
      | succ j0 =>
          right
          refine ⟨by omega, by omega, ?_⟩
          have hp := hpos j0 (by
            rcases hava with h | h
            · omega
            · omega)
          have hto : (((j0 + 1 : Nat) : Int) - 1).toNat = j0 := by omega
          rw [hto]
          exact hp
    · intro i hi hvi
      omega
  · intro j hj hava
    show ((List.range (c.length + 1)).map fun i : Nat => (i : Int) + 1).getD j 0
        = minAvailAbove c c.length j
    rw [getD_range_map _ _ _ (by omega)]
    symm
    apply minAvailAbove_unique
    · by_cases hjk : j + 1 = c.length
      · left; omega
      · right
        refine ⟨by omega, by omega, ?_⟩
        have hp := hpos (j + 1) (by omega)
        have hto : (((j : Nat) : Int) + 1).toNat = j + 1 := by omega
        rw [hto]
        exact hp
    · intro i h1 h2 h3
      omega

theorem inc_WF (k : Nat) (dll : DoubleLinkedList) (j : Nat) (hWF : WF k dll)
    (hj : j < k) (hava : 0 < dll.n.getD j 0) :
    WF k { dll with n := dll.n.set j (dll.n.getD j 0 + 1) } := by
  obtain ⟨hitems, hlen, hlnext, hlprev, hhead, hnextC, hprevC⟩ := hWF
  have hcong : ∀ i : Nat, (0 < (dll.n.set j (dll.n.getD j 0 + 1)).getD i 0 ↔ 0 < dll.n.getD i 0) := by
    intro i
    by_cases hij : i = j
    · subst hij
      rw [getD_set_self _ _ (by omega)]
      omega
    · rw [getD_set_ne _ _ (fun hc => hij hc.symm)]
  refine ⟨hitems, by simpa using hlen, hlnext, hlprev, ?_, ?_, ?_⟩
  · show dll.head = _
    rw [hhead]
    exact maxAvailBelow_congr k (fun i _ => (hcong i).symm)
  · intro jp hjp hcase
    show dll.next.getD jp 0 = _
    rw [hnextC jp hjp (by
      rcases hcase with h | h
      · left; exact h
      · right; exact (hcong jp).mp h)]
    exact maxAvailBelow_congr jp (fun i _ => (hcong i).symm)
  · intro jp hjp hava2
    show dll.prev.getD jp 0 = _
    rw [hprevC jp hjp ((hcong jp).mp hava2)]
    exact minAvailAbove_congr k jp (fun i _ _ => (hcong i).symm)


theorem mab_set_zero (n : List Int) (j : Nat) (hjlen : j < n.length) (jp : Nat) :
    maxAvailBelow (n.set j 0) jp
      = if maxAvailBelow n jp = (j : Int) then maxAvailBelow n j
        else maxAvailBelow n jp := by
  have hb := maxAvailBelow_bounds n jp
  by_cases heq : maxAvailBelow n jp = (j : Int)
  · rw [if_pos heq]
    have hjjp : j < jp := by omega
    have hbj := maxAvailBelow_bounds n j
    apply maxAvailBelow_unique
    · rcases maxAvailBelow_cases n j with h | h
      · left; exact h
      · right
        refine ⟨h.1, by omega, ?_⟩
        rw [getD_set_ne _ _ (by omega : j ≠ (maxAvailBelow n j).toNat)]
        exact h.2.2
    · intro i hi hNi
      by_cases hij : i = j
      · subst hij
        rw [getD_set_self _ _ hjlen]
        omega
      · rw [getD_set_ne _ _ (fun h => hij h.symm)]
        rcases Nat.lt_or_ge i j with h2 | h2
        · exact maxAvailBelow_max n j i h2 hNi
        · exact maxAvailBelow_max n jp i hi (by omega)
  · rw [if_neg heq]
    apply maxAvailBelow_unique
    · rcases maxAvailBelow_cases n jp with h | h
      · left; exact h
      · right
        refine ⟨h.1, h.2.1, ?_⟩
        rw [getD_set_ne _ _ (by omega : j ≠ (maxAvailBelow n jp).toNat)]
        exact h.2.2
    · intro i hi hMi
      by_cases hij : i = j
      · subst hij
        rw [getD_set_self _ _ hjlen]
        omega
      · rw [getD_set_ne _ _ (fun h => hij h.symm)]
        exact maxAvailBelow_max n jp i hi hMi

theorem mia_set_zero (n : List Int) (k j : Nat) (hjlen : j < n.length)
    (hjk : j < k) (jp : Nat) :
    minAvailAbove (n.set j 0) k jp
      = if minAvailAbove n k jp = (j : Int) then minAvailAbove n k j
        else minAvailAbove n k jp := by
  have hb := minAvailAbove_bounds n k jp
  have hble := minAvailAbove_le n k jp
  by_cases heq : minAvailAbove n k jp = (j : Int)
  · rw [if_pos heq]
    have hjpj : jp < j := by
      rcases hb with h | h
      · omega
      · omega
    have hbj := minAvailAbove_bounds n k j
    have hbjle := minAvailAbove_le n k j
    apply minAvailAbove_unique
    · rcases minAvailAbove_cases n k j with h | h
      · left; exact h
      · right
        refine ⟨by omega, h.2.1, ?_⟩
        rw [getD_set_ne _ _ (by omega : j ≠ (minAvailAbove n k j).toNat)]
        exact h.2.2
    · intro i hi hvi hik
      by_cases hij : i = j
      · subst hij
        rw [getD_set_self _ _ hjlen]
        omega
      · rw [getD_set_ne _ _ (fun h => hij h.symm)]
        rcases Nat.lt_or_ge i j with h2 | h2
        · exact minAvailAbove_min n k jp i hi (by omega)
        · exact minAvailAbove_min n k j i (by omega) hvi
  · rw [if_neg heq]
    apply minAvailAbove_unique
    · rcases minAvailAbove_cases n k jp with h | h
      · left; exact h
      · right
        refine ⟨h.1, h.2.1, ?_⟩
        rw [getD_set_ne _ _ (by omega : j ≠ (minAvailAbove n k jp).toNat)]
        exact h.2.2
    · intro i hi hvi hik
      by_cases hij : i = j
      · subst hij
        rw [getD_set_self _ _ hjlen]
        omega
      · rw [getD_set_ne _ _ (fun h => hij h.symm)]
        exact minAvailAbove_min n k jp i hi hvi

theorem mab_set_pos (n : List Int) (j : Nat) (hjlen : j < n.length) (v : Int)
    (hv : 0 < v) (jp : Nat) :
    maxAvailBelow (n.set j v) jp
      = if maxAvailBelow n jp < (j : Int) ∧ j < jp then (j : Int)
        else maxAvailBelow n jp := by
  have hb := maxAvailBelow_bounds n jp
  by_cases hcond : maxAvailBelow n jp < (j : Int) ∧ j < jp
  · rw [if_pos hcond]
    apply maxAvailBelow_unique
    · right
      refine ⟨by omega, by omega, ?_⟩
      have : ((j : Int)).toNat = j := by omega
      rw [this, getD_set_self _ _ hjlen]
      exact hv
    · intro i hi hji
      have hij : i ≠ j := by omega
      rw [getD_set_ne _ _ (fun h => hij h.symm)]
      exact maxAvailBelow_max n jp i hi (by omega)
  · rw [if_neg hcond]
    apply maxAvailBelow_unique
    · rcases maxAvailBelow_cases n jp with h | h
      · left; exact h
      · right
        refine ⟨h.1, h.2.1, ?_⟩
        by_cases hMj : (maxAvailBelow n jp).toNat = j
        · rw [hMj, getD_set_self _ _ hjlen]
          exact hv
        · rw [getD_set_ne _ _ (fun hc => hMj hc.symm)]
          exact h.2.2
    · intro i hi hMi
      have hij : i ≠ j := by omega
      rw [getD_set_ne _ _ (fun h => hij h.symm)]
      exact maxAvailBelow_max n jp i hi hMi

theorem mia_set_pos (n : List Int) (k j : Nat) (hjlen : j < n.length)
    (hjk : j < k) (v : Int) (hv : 0 < v) (jp : Nat) :
    minAvailAbove (n.set j v) k jp
      = if (j : Int) < minAvailAbove n k jp ∧ jp < j then (j : Int)
        else minAvailAbove n k jp := by
  have hb := minAvailAbove_bounds n k jp
  have hble := minAvailAbove_le n k jp
  by_cases hcond : (j : Int) < minAvailAbove n k jp ∧ jp < j
  · rw [if_pos hcond]
    apply minAvailAbove_unique
    · right
      refine ⟨by omega, by omega, ?_⟩
      have : ((j : Int)).toNat = j := by omega
      rw [this, getD_set_self _ _ hjlen]
      exact hv
    · intro i hi hji hik
      have hij : i ≠ j := by omega
      rw [getD_set_ne _ _ (fun h => hij h.symm)]
      exact minAvailAbove_min n k jp i hi (by omega)
  · rw [if_neg hcond]
    apply minAvailAbove_unique
    · rcases minAvailAbove_cases n k jp with h | h
      · left; exact h
      · right
        refine ⟨h.1, h.2.1, ?_⟩
        by_cases hMj : (minAvailAbove n k jp).toNat = j
        · rw [hMj, getD_set_self _ _ hjlen]
          exact hv
        · rw [getD_set_ne _ _ (fun hc => hMj hc.symm)]
          exact h.2.2
    · intro i hi hvi hik
      have hij : i ≠ j := by omega
      rw [getD_set_ne _ _ (fun h => hij h.symm)]
      exact minAvailAbove_min n k jp i hi hvi

theorem mia_eq_of_mab_eq (n : List Int) (k jp j : Nat) (hjk : j < k)
    (hcase : jp = k ∨ (jp < k ∧ 0 < n.getD jp 0))
    (heq : maxAvailBelow n jp = (j : Int)) : minAvailAbove n k j = (jp : Int) := by
  have hb := maxAvailBelow_bounds n jp
  have hjjp : j < jp := by omega
  apply minAvailAbove_unique
  · rcases hcase with h | h
    · left; omega
    · right
      refine ⟨by omega, by omega, ?_⟩
      have : ((jp : Int)).toNat = jp := by omega
      rw [this]
      exact h.2
  · intro i hji hijp hik
    exact maxAvailBelow_max n jp i (by omega) (by omega)

theorem mab_eq_of_mia_eq (n : List Int) (k jp j : Nat) (hjpk : jp < k)
    (hava : 0 < n.getD jp 0)
    (heq : minAvailAbove n k jp = (j : Int)) : maxAvailBelow n j = (jp : Int) := by
  have hb := minAvailAbove_bounds n k jp
  have hjpj : jp < j := by
    rcases hb with h | h
    · omega
    · omega
  apply maxAvailBelow_unique
  · right
    refine ⟨by omega, by omega, ?_⟩
    have : ((jp : Int)).toNat = jp := by omega
    rw [this]
    exact hava
  · intro i hij hjpi
    exact minAvailAbove_min n k jp i (by omega) (by omega)

theorem mab_eq_of_gap (n : List Int) (jp x : Nat) (hx : x ≤ jp)
    (hgap : ∀ i : Nat, x ≤ i → i < jp → ¬ 0 < n.getD i 0) :
    maxAvailBelow n jp = maxAvailBelow n x := by
  apply maxAvailBelow_unique
  · rcases maxAvailBelow_cases n x with h | h
    · left; exact h
    · right; exact ⟨h.1, by omega, h.2.2⟩
  · intro i hi hvi
    rcases Nat.lt_or_ge i x with h2 | h2
    · exact maxAvailBelow_max n x i h2 hvi
    · exact hgap i h2 hi


theorem getD_len_le (xs : List Int) (i : Nat) (h : xs.length ≤ i) :
    xs.getD i 0 = 0 := by
  simp [List.getD_eq_getElem?_getD, List.getElem?_eq_none h]

theorem remove_fields (dll : DoubleLinkedList) (j : Int) :
    (dll.remove j).n = dll.n
    ∧ (dll.remove j).n_items = dll.n_items
    ∧ (dll.remove j).n_tot = dll.n_tot
    ∧ (dll.remove j).next = pyset dll.next (pyget dll.prev j 0) (pyget dll.next j 0)
    ∧ (dll.remove j).prev = pyset dll.prev (pyget dll.next j 0) (pyget dll.prev j 0)
    ∧ (dll.remove j).head = (if j = dll.head then pyget dll.next j 0 else dll.head) := by
  by_cases h : j = dll.head
  · simp [DoubleLinkedList.remove, h]
  · simp [DoubleLinkedList.remove, h]

theorem add_fields (dll : DoubleLinkedList) (j : Int) :
    (dll.add j).n = dll.n
    ∧ (dll.add j).n_items = dll.n_items
    ∧ (dll.add j).n_tot = dll.n_tot
    ∧ (dll.add j).next = pyset dll.next (pyget dll.prev j 0) j
    ∧ (dll.add j).prev = pyset dll.prev (pyget dll.next j 0) j
    ∧ (dll.add j).head
        = (if pyget (pyset dll.prev (pyget dll.next j 0) j) j 0 = dll.n_items
           then j else dll.head) := by
  by_cases h : pyget (pyset dll.prev (pyget dll.next j 0) j) j 0 = dll.n_items
  · simp [DoubleLinkedList.add, h]
  · simp [DoubleLinkedList.add, h]

theorem dec_remove_WF (k : Nat) (dll : DoubleLinkedList) (j : Nat)
    (hWF : WF k dll) (hj : j < k) (hava : 0 < dll.n.getD j 0) :
    WF k (({ dll with n := dll.n.set j 0 }).remove (j : Int))
    ∧ (({ dll with n := dll.n.set j 0 }).remove (j : Int)).n = dll.n.set j 0
    ∧ (({ dll with n := dll.n.set j 0 }).remove (j : Int)).n_tot = dll.n_tot
    ∧ (({ dll with n := dll.n.set j 0 }).remove (j : Int)).next.getD j 0
        = maxAvailBelow (dll.n.set j 0) j
    ∧ (({ dll with n := dll.n.set j 0 }).remove (j : Int)).prev.getD j 0
        = minAvailAbove (dll.n.set j 0) k j
    ∧ (({ dll with n := dll.n.set j 0 }).remove (j : Int)).n_items = dll.n_items
    ∧ (({ dll with n := dll.n.set j 0 }).remove (j : Int)).next
        = dll.next.set (minAvailAbove dll.n k j).toNat (maxAvailBelow dll.n j)
    ∧ ((maxAvailBelow dll.n j = -1
          ∧ (({ dll with n := dll.n.set j 0 }).remove (j : Int)).prev
              = dll.prev.set k (minAvailAbove dll.n k j))
        ∨ (0 ≤ maxAvailBelow dll.n j
          ∧ (({ dll with n := dll.n.set j 0 }).remove (j : Int)).prev
              = dll.prev.set (maxAvailBelow dll.n j).toNat (minAvailAbove dll.n k j)))
    ∧ (({ dll with n := dll.n.set j 0 }).remove (j : Int)).head
        = (if (j : Int) = dll.head then maxAvailBelow dll.n j else dll.head) := by
  obtain ⟨hitems, hlen, hlnext, hlprev, hhead, hnextC, hprevC⟩ := hWF
  have hjlen : j < dll.n.length := by omega
  have hNdef : dll.next.getD j 0 = maxAvailBelow dll.n j := hnextC j (by omega) (Or.inr hava)
  have hPdef : dll.prev.getD j 0 = minAvailAbove dll.n k j := hprevC j hj hava
  have hNb := maxAvailBelow_bounds dll.n j
  have hNc := maxAvailBelow_cases dll.n j
  have hPb := minAvailAbove_bounds dll.n k j
  have hPle := minAvailAbove_le dll.n k j
  have hPgt : (j : Int) < minAvailAbove dll.n k j := by
    rcases hPb with h | h
    · exact h
    · omega
  have hcoe : ((j : Int)).toNat = j := by omega
  have hflds := remove_fields { dll with n := dll.n.set j 0 } (j : Int)
  dsimp only at hflds
  obtain ⟨hfn, hfitems, hftot, hfnext, hfprev, hfhead⟩ := hflds
  have hgn : pyget dll.next (j : Int) 0 = maxAvailBelow dll.n j := by
    rw [pyget_int dll.next _ 0 (by omega) (by rw [hlnext]; omega), hcoe, hNdef]
  have hgp : pyget dll.prev (j : Int) 0 = minAvailAbove dll.n k j := by
    rw [pyget_int dll.prev _ 0 (by omega) (by rw [hlprev]; omega), hcoe, hPdef]
  rw [hgn] at hfnext hfprev hfhead
  rw [hgp] at hfnext hfprev
  have hnext2 : (({ dll with n := dll.n.set j 0 }).remove (j : Int)).next
      = dll.next.set (minAvailAbove dll.n k j).toNat (maxAvailBelow dll.n j) := by
    rw [hfnext, pyset_int _ _ _ (by omega) (by rw [hlnext]; omega)]
  have hmabz := mab_set_zero dll.n j hjlen
  have hmiaz := mia_set_zero dll.n k j hjlen hj
  have havne : ∀ i : Nat, i ≠ j → (dll.n.set j 0).getD i 0 = dll.n.getD i 0 :=
    fun i hi => getD_set_ne _ _ (fun hc => hi hc.symm)
  have hprevform : (maxAvailBelow dll.n j = -1
        ∧ (({ dll with n := dll.n.set j 0 }).remove (j : Int)).prev
            = dll.prev.set k (minAvailAbove dll.n k j))
      ∨ (0 ≤ maxAvailBelow dll.n j
        ∧ (({ dll with n := dll.n.set j 0 }).remove (j : Int)).prev
            = dll.prev.set (maxAvailBelow dll.n j).toNat (minAvailAbove dll.n k j)) := by
    rcases hNc with hN1 | hN2
    · left
      refine ⟨hN1, ?_⟩
      rw [hfprev, hN1, pyset_neg_one _ _ (by
        intro hc
        rw [hc] at hlprev
        simp at hlprev)]
      rw [hlprev]
      have hkk : k + 1 - 1 = k := rfl
      rw [hkk]
    · right
      obtain ⟨hN0, hNj, hNava⟩ := hN2
      refine ⟨hN0, ?_⟩
      rw [hfprev, pyset_int _ _ _ hN0 (by rw [hlprev]; omega)]
  refine ⟨⟨?_, ?_, ?_, ?_, ?_, ?_, ?_⟩, hfn, hftot, ?_, ?_, hfitems, hnext2, hprevform, hfhead⟩
  · rw [hfitems]; exact hitems
  · rw [hfn]; simpa using hlen
  · rw [hfnext, pyset_length]; exact hlnext
  · rw [hfprev, pyset_length]; exact hlprev
  · -- head clause
    rw [hfhead, hfn, hmabz k]
    by_cases hjh : (j : Int) = dll.head
    · rw [if_pos hjh, if_pos (by rw [← hhead, ← hjh])]
    · rw [if_neg hjh, if_neg (by rw [← hhead]; intro hc; exact hjh hc.symm), ← hhead]
  · -- next clause
    intro jp hjp hcase
    rw [hfn] at hcase
    have hjpj : jp ≠ j := by
      intro hc
      subst hc
      rcases hcase with h | h
      · omega
      · rw [getD_set_self _ _ hjlen] at h; omega
    have hcase2 : jp = k ∨ 0 < dll.n.getD jp 0 := by
      rcases hcase with h | h
      · left; exact h
      · right; rwa [havne jp hjpj] at h
    rw [hnext2, hfn, hmabz jp]
    by_cases hjpP : (jp : Int) = minAvailAbove dll.n k j
    · have hPN : (minAvailAbove dll.n k j).toNat = jp := by omega
      rw [hPN, getD_set_self _ _ (by omega : jp < dll.next.length)]
      have hMj : maxAvailBelow dll.n jp = (j : Int) := by
        apply maxAvailBelow_unique
        · right
          refine ⟨by omega, by omega, ?_⟩
          rw [hcoe]; exact hava
        · intro i hi hji2
          exact minAvailAbove_min dll.n k j i (by omega) (by omega)
      rw [if_pos hMj]
    · have hPN2 : (minAvailAbove dll.n k j).toNat ≠ jp := by omega
      rw [getD_set_ne _ _ hPN2, hnextC jp hjp hcase2]
      have hMne : maxAvailBelow dll.n jp ≠ (j : Int) := by
        intro hMj
        have hcase3 : jp = k ∨ (jp < k ∧ 0 < dll.n.getD jp 0) := by
          rcases hcase2 with h | h
          · left; exact h
          · right
            refine ⟨?_, h⟩
            by_cases hjpk : jp = k
            · rw [hjpk, getD_len_le dll.n k (by omega)] at h
              omega
            · omega
        have := mia_eq_of_mab_eq dll.n k jp j hj hcase3 hMj
        exact hjpP this.symm
      rw [if_neg hMne]
  · -- prev clause
    intro jp hjpk hava1
    rw [hfn] at hava1
    have hjpj : jp ≠ j := by
      intro hc
      subst hc
      rw [getD_set_self _ _ hjlen] at hava1
      omega
    have hava0 : 0 < dll.n.getD jp 0 := by rwa [havne jp hjpj] at hava1
    rw [hfprev, hfn, hmiaz jp]
    have hQne_of : maxAvailBelow dll.n j ≠ (jp : Int) →
        minAvailAbove dll.n k jp ≠ (j : Int) := by
      intro hne hQj
      exact hne (mab_eq_of_mia_eq dll.n k jp j hjpk hava0 hQj)
    rcases hNc with hN1 | hN2
    · -- stale next of j is -1 : the prev write wraps to the sentinel slot k
      rw [hN1, pyset_neg_one _ _ (by
        intro hc
        rw [hc] at hlprev
        simp at hlprev)]
      rw [hlprev]
      have hkk : k + 1 - 1 = k := by omega
      rw [hkk, getD_set_ne _ _ (by omega : k ≠ jp), hprevC jp hjpk hava0]
      rw [if_neg (hQne_of (by omega))]
    · obtain ⟨hN0, hNj, hNava⟩ := hN2
      rw [pyset_int _ _ _ hN0 (by rw [hlprev]; omega)]
      by_cases hjpN : (jp : Int) = maxAvailBelow dll.n j
      · have hNN : (maxAvailBelow dll.n j).toNat = jp := by omega
        rw [hNN, getD_set_self _ _ (by omega : jp < dll.prev.length)]
        have hQj : minAvailAbove dll.n k jp = (j : Int) := by
          apply minAvailAbove_unique
          · right
            refine ⟨by omega, by omega, ?_⟩
            rw [hcoe]; exact hava
          · intro i hi hij2 hik
            exact maxAvailBelow_max dll.n j i (by omega) (by omega)
        rw [if_pos hQj]
      · rw [getD_set_ne _ _ (by omega : (maxAvailBelow dll.n j).toNat ≠ jp)]
        rw [hprevC jp hjpk hava0]
        rw [if_neg (hQne_of (by omega))]
  · -- stale next link of j after removal
    rw [hnext2, getD_set_ne _ _ (by omega : (minAvailAbove dll.n k j).toNat ≠ j)]
    rw [hNdef, hmabz j, if_neg (by omega : ¬ maxAvailBelow dll.n j = (j : Int))]
  · -- stale prev link of j after removal
    rw [hfprev, hmiaz j, if_neg (by omega : ¬ minAvailAbove dll.n k j = (j : Int))]
    rcases hNc with hN1 | hN2
    · rw [hN1, pyset_neg_one _ _ (by
        intro hc
        rw [hc] at hlprev
        simp at hlprev)]
      rw [hlprev]
      have hkk : k + 1 - 1 = k := by omega
      rw [hkk, getD_set_ne _ _ (by omega : k ≠ j)]
      exact hPdef
    · obtain ⟨hN0, hNj, hNava⟩ := hN2
      rw [pyset_int _ _ _ hN0 (by rw [hlprev]; omega)]
      rw [getD_set_ne _ _ (by omega : (maxAvailBelow dll.n j).toNat ≠ j)]
      exact hPdef


theorem add_inc_WF (k : Nat) (dll : DoubleLinkedList) (j : Nat)
    (hWF : WF k dll) (hj : j < k) (hjz : dll.n.getD j 0 = 0)
    (hnext : dll.next.getD j 0 = maxAvailBelow dll.n j)
    (hprev : dll.prev.getD j 0 = minAvailAbove dll.n k j)
    (v : Int) (hv : 0 < v) :
    WF k { dll.add (j : Int) with n := dll.n.set j v } := by
  obtain ⟨hitems, hlen, hlnext, hlprev, hhead, hnextC, hprevC⟩ := hWF
  have hjlen : j < dll.n.length := by omega
  have hNb := maxAvailBelow_bounds dll.n j
  have hNc := maxAvailBelow_cases dll.n j
  have hPb := minAvailAbove_bounds dll.n k j
  have hPle := minAvailAbove_le dll.n k j
  have hPgt : (j : Int) < minAvailAbove dll.n k j := by
    rcases hPb with h | h
    · exact h
    · omega
  have hPc := minAvailAbove_cases dll.n k j
  have hcoe : ((j : Int)).toNat = j := by omega
  have hflds := add_fields dll (j : Int)
  obtain ⟨hfn, hfitems, hftot, hfnext, hfprev, hfhead⟩ := hflds
  have hgn : pyget dll.next (j : Int) 0 = maxAvailBelow dll.n j := by
    rw [pyget_int dll.next _ 0 (by omega) (by rw [hlnext]; omega), hcoe, hnext]
  have hgp : pyget dll.prev (j : Int) 0 = minAvailAbove dll.n k j := by
    rw [pyget_int dll.prev _ 0 (by omega) (by rw [hlprev]; omega), hcoe, hprev]
  rw [hgp] at hfnext
  rw [hgn] at hfprev hfhead
  -- reading back prev at j after the prev write gives the stale prev value
  have hprev1get : pyget (pyset dll.prev (maxAvailBelow dll.n j) (j : Int)) (j : Int) 0
      = minAvailAbove dll.n k j := by
    rcases hNc with hN1 | hN2
    · rw [hN1, pyset_neg_one _ _ (by
        intro hc
        rw [hc] at hlprev
        simp at hlprev)]
      rw [pyget_int _ _ _ (by omega) (by simp [hlprev]; omega), hcoe]
      rw [hlprev]
      have hkk : k + 1 - 1 = k := by omega
      rw [hkk, getD_set_ne _ _ (by omega : k ≠ j)]
      exact hprev
    · obtain ⟨hN0, hNj, hNava⟩ := hN2
      rw [pyset_int _ _ _ hN0 (by rw [hlprev]; omega)]
      rw [pyget_int _ _ _ (by omega) (by simp [hlprev]; omega), hcoe]
      rw [getD_set_ne _ _ (by omega : (maxAvailBelow dll.n j).toNat ≠ j)]
      exact hprev
  rw [hprev1get, hitems] at hfhead
  have hnext2 : (dll.add (j : Int)).next
      = dll.next.set (minAvailAbove dll.n k j).toNat (j : Int) := by
    rw [hfnext, pyset_int _ _ _ (by omega) (by rw [hlnext]; omega)]
  have hmabp := mab_set_pos dll.n j hjlen v hv
  have hmiap := mia_set_pos dll.n k j hjlen hj v hv
  have havne : ∀ i : Nat, i ≠ j → (dll.n.set j v).getD i 0 = dll.n.getD i 0 :=
    fun i hi => getD_set_ne _ _ (fun hc => hi hc.symm)
  refine ⟨?_, ?_, ?_, ?_, ?_, ?_, ?_⟩
  · show (dll.add (j : Int)).n_items = (k : Int)
    rw [hfitems]; exact hitems
  · show (dll.n.set j v).length = k
    simpa using hlen
  · show (dll.add (j : Int)).next.length = k + 1
    rw [hfnext, pyset_length]; exact hlnext
  · show (dll.add (j : Int)).prev.length = k + 1
    rw [hfprev, pyset_length]; exact hlprev
  · -- head clause
    show (dll.add (j : Int)).head = _
    rw [hfhead, hmabp k]
    by_cases hPk : minAvailAbove dll.n k j = (k : Int)
    · rw [if_pos hPk]
      have hgap : maxAvailBelow dll.n k = maxAvailBelow dll.n j := by
        apply mab_eq_of_gap dll.n k j (by omega)
        intro i hij hik
        rcases Nat.eq_or_lt_of_le hij with h2 | h2
        · rw [← h2]; omega
        · exact minAvailAbove_min dll.n k j i (by omega) (by omega)
      rw [if_pos (by
        constructor
        · rw [hgap]; omega
        · exact hj)]
    · rw [if_neg hPk]
      have hPlt : minAvailAbove dll.n k j < (k : Int) := by omega
      have hPava : 0 < dll.n.getD (minAvailAbove dll.n k j).toNat 0 := by
        rcases hPc with h | h
        · exact absurd h hPk
        · exact h.2.2
      have hge : (j : Int) ≤ maxAvailBelow dll.n k := by
        have := maxAvailBelow_ge_of_avail dll.n k (minAvailAbove dll.n k j).toNat
          (by omega) hPava
        omega
      rw [if_neg (by omega), ← hhead]
  · -- next clause
    intro jp hjp hcase
    show (dll.add (j : Int)).next.getD jp 0 = _
    rw [hnext2, hmabp jp]
    have hcase2 : jp ≠ j → (jp = k ∨ 0 < dll.n.getD jp 0) := by
      intro hne
      rcases hcase with h | h
      · left; exact h
      · right; rwa [havne jp hne] at h
    by_cases hjpP : (jp : Int) = minAvailAbove dll.n k j
    · have hPN : (minAvailAbove dll.n k j).toNat = jp := by omega
      rw [hPN, getD_set_self _ _ (by omega : jp < dll.next.length)]
      have hgap : maxAvailBelow dll.n jp = maxAvailBelow dll.n j := by
        apply mab_eq_of_gap dll.n jp j (by omega)
        intro i hij hik
        rcases Nat.eq_or_lt_of_le hij with h2 | h2
        · rw [← h2]; omega
        · exact minAvailAbove_min dll.n k j i (by omega) (by omega)
      rw [if_pos (by
        constructor
        · rw [hgap]; omega
        · omega)]
    · by_cases hjpj : jp = j
      · rw [hjpj, getD_set_ne _ _ (by omega : (minAvailAbove dll.n k j).toNat ≠ j)]
        rw [hnext, if_neg (by omega : ¬ (maxAvailBelow dll.n j < (j : Int) ∧ j < j))]
      · rw [getD_set_ne _ _ (by omega : (minAvailAbove dll.n k j).toNat ≠ jp)]
        rw [hnextC jp hjp (hcase2 hjpj)]
        rw [if_neg (by
          intro hcond
          obtain ⟨hMj, hjjp⟩ := hcond
          have hP2 : minAvailAbove dll.n k j = (jp : Int) := by
            apply minAvailAbove_unique
            · rcases hcase2 hjpj with h | h
              · left; omega
              · right
                have hjpk2 : jp < k := by
                  by_cases hc : jp = k
                  · rw [hc, getD_len_le dll.n k (by omega)] at h
                    omega
                  · omega
                refine ⟨by omega, by omega, ?_⟩
                have : ((jp : Int)).toNat = jp := by omega
                rw [this]; exact h
            · intro i hi hijp hik
              exact maxAvailBelow_max dll.n jp i (by omega) (by omega)
          exact hjpP hP2.symm)]
  · -- prev clause
    intro jp hjpk hava2
    show (dll.add (j : Int)).prev.getD jp 0 = _
    rw [hfprev, hmiap jp]
    have hava0 : jp ≠ j → 0 < dll.n.getD jp 0 := by
      intro hne
      rwa [havne jp hne] at hava2
    rcases hNc with hN1 | hN2
    · -- stale next of j is -1 : the prev write wraps to the sentinel slot
      rw [hN1, pyset_neg_one _ _ (by
        intro hc
        rw [hc] at hlprev
        simp at hlprev)]
      rw [hlprev]
      have hkk : k + 1 - 1 = k := by omega
      rw [hkk, getD_set_ne _ _ (by omega : k ≠ jp)]
      by_cases hjpj : jp = j
      · rw [hjpj, hprev, if_neg (by omega : ¬ ((j : Int) < minAvailAbove dll.n k j ∧ j < j))]
      · rw [hprevC jp hjpk (hava0 hjpj)]
        rw [if_neg (by
          intro hcond
          obtain ⟨hQj, hjpj2⟩ := hcond
          have := maxAvailBelow_ge_of_avail dll.n j jp hjpj2 (hava0 hjpj)
          omega)]
    · obtain ⟨hN0, hNj, hNava⟩ := hN2
      rw [pyset_int _ _ _ hN0 (by rw [hlprev]; omega)]
      by_cases hjpN : (jp : Int) = maxAvailBelow dll.n j
      · have hNN : (maxAvailBelow dll.n j).toNat = jp := by omega
        rw [hNN, getD_set_self _ _ (by omega : jp < dll.prev.length)]
        have hQgt : (j : Int) < minAvailAbove dll.n k jp := by
          by_contra hc
          push_neg at hc
          rcases minAvailAbove_cases dll.n k jp with h | h
          · omega
          · have hmlt : minAvailAbove dll.n k jp < (j : Int) ∨ minAvailAbove dll.n k jp = (j : Int) := by
              omega
            rcases hmlt with h2 | h2
            · exact maxAvailBelow_max dll.n j (minAvailAbove dll.n k jp).toNat
                (by omega) (by omega) h.2.2
            · rw [h2, hcoe] at h
              omega
        rw [if_pos (⟨hQgt, by omega⟩ : _ ∧ _)]
      · rw [getD_set_ne _ _ (by omega : (maxAvailBelow dll.n j).toNat ≠ jp)]
        by_cases hjpj : jp = j
        · rw [hjpj, hprev, if_neg (by omega : ¬ ((j : Int) < minAvailAbove dll.n k j ∧ j < j))]
        · rw [hprevC jp hjpk (hava0 hjpj)]
          rw [if_neg (by
            intro hcond
            obtain ⟨hQj, hjpj2⟩ := hcond
            have hge := maxAvailBelow_ge_of_avail dll.n j jp hjpj2 (hava0 hjpj)
            have hlt : (jp : Int) < maxAvailBelow dll.n j ∨ (jp : Int) = maxAvailBelow dll.n j := by
              omega
            rcases hlt with h2 | h2
            · exact minAvailAbove_min dll.n k jp (maxAvailBelow dll.n j).toNat
                (by omega) (by omega) hNava
            · exact hjpN h2)]


theorem WF_congr (k : Nat) (d1 d2 : DoubleLinkedList) (h : WF k d1)
    (hn : d2.n = d1.n) (hnx : d2.next = d1.next) (hh : d2.head = d1.head)
    (hit : d2.n_items = d1.n_items) (hpl : d2.prev.length = d1.prev.length)
    (hp : ∀ i : Nat, i < k → d2.prev.getD i 0 = d1.prev.getD i 0) : WF k d2 := by
  obtain ⟨hitems, hlen, hlnext, hlprev, hhead, hnextC, hprevC⟩ := h
  refine ⟨by rw [hit]; exact hitems, by rw [hn]; exact hlen, by rw [hnx]; exact hlnext,
    by rw [hpl]; exact hlprev, by rw [hh, hn]; exact hhead, ?_, ?_⟩
  · intro j hj hc
    rw [hnx, hn]
    exact hnextC j hj (by rwa [hn] at hc)
  · intro j hj hc
    rw [hp j hj, hn]
    exact hprevC j hj (by rwa [hn] at hc)

theorem dec_keep_WF (k : Nat) (dll : DoubleLinkedList) (j : Nat) (hWF : WF k dll)
    (hj : j < k) (hava : 1 < dll.n.getD j 0) :
    WF k { dll with n := dll.n.set j (dll.n.getD j 0 - 1) } := by
  obtain ⟨hitems, hlen, hlnext, hlprev, hhead, hnextC, hprevC⟩ := hWF
  have hcong : ∀ i : Nat,
      (0 < (dll.n.set j (dll.n.getD j 0 - 1)).getD i 0 ↔ 0 < dll.n.getD i 0) := by
    intro i
    by_cases hij : i = j
    · subst hij
      rw [getD_set_self _ _ (by omega)]
      omega
    · rw [getD_set_ne _ _ (fun hc => hij hc.symm)]
  refine ⟨hitems, by simpa using hlen, hlnext, hlprev, ?_, ?_, ?_⟩
  · show dll.head = _
    rw [hhead]
    exact maxAvailBelow_congr k (fun i _ => (hcong i).symm)
  · intro jp hjp hcase
    show dll.next.getD jp 0 = _
    rw [hnextC jp hjp (by
      rcases hcase with h | h
      · left; exact h
      · right; exact (hcong jp).mp h)]
    exact maxAvailBelow_congr jp (fun i _ => (hcong i).symm)
  · intro jp hjp hava2
    show dll.prev.getD jp 0 = _
    rw [hprevC jp hjp ((hcong jp).mp hava2)]
    exact minAvailAbove_congr k jp (fun i _ _ => (hcong i).symm)

theorem remove_add_cycle (k : Nat) (dll mid : DoubleLinkedList) (j : Nat)
    (hWF : WF k dll) (hj : j < k) (hav1 : dll.n.getD j 0 = 1)
    (hmidn : mid.n = dll.n.set j 0)
    (hmidnext : mid.next = (({ dll with n := dll.n.set j 0 }).remove (j : Int)).next)
    (hmidhead : mid.head = (({ dll with n := dll.n.set j 0 }).remove (j : Int)).head)
    (hmiditems : mid.n_items = dll.n_items)
    (hmidplen : mid.prev.length = dll.prev.length)
    (hmidprev : ∀ i : Nat, i < k →
      mid.prev.getD i 0 = (({ dll with n := dll.n.set j 0 }).remove (j : Int)).prev.getD i 0) :
    ({ mid.add (j : Int) with
        n := pyset (mid.add (j : Int)).n (j : Int)
              (pyget (mid.add (j : Int)).n (j : Int) 0 + 1) }).n = dll.n
    ∧ ({ mid.add (j : Int) with
        n := pyset (mid.add (j : Int)).n (j : Int)
              (pyget (mid.add (j : Int)).n (j : Int) 0 + 1) }).next = dll.next
    ∧ ({ mid.add (j : Int) with
        n := pyset (mid.add (j : Int)).n (j : Int)
              (pyget (mid.add (j : Int)).n (j : Int) 0 + 1) }).head = dll.head
    ∧ ({ mid.add (j : Int) with
        n := pyset (mid.add (j : Int)).n (j : Int)
              (pyget (mid.add (j : Int)).n (j : Int) 0 + 1) }).n_items = dll.n_items
    ∧ ({ mid.add (j : Int) with
        n := pyset (mid.add (j : Int)).n (j : Int)
              (pyget (mid.add (j : Int)).n (j : Int) 0 + 1) }).n_tot = mid.n_tot
    ∧ ({ mid.add (j : Int) with
        n := pyset (mid.add (j : Int)).n (j : Int)
              (pyget (mid.add (j : Int)).n (j : Int) 0 + 1) }).prev.length = dll.prev.length
    ∧ (∀ i : Nat, i < k →
        ({ mid.add (j : Int) with
          n := pyset (mid.add (j : Int)).n (j : Int)
                (pyget (mid.add (j : Int)).n (j : Int) 0 + 1) }).prev.getD i 0
          = dll.prev.getD i 0) := by
  obtain ⟨hitems, hlen, hlnext, hlprev, hhead, hnextC, hprevC⟩ := hWF
  have hjlen : j < dll.n.length := by omega
  have hcoe : ((j : Int)).toNat = j := by omega
  obtain ⟨hWF2, hremn, hremtot, hstaleN, hstaleP, hremitems, hremnext, hremprevform,
    hremhead⟩ := dec_remove_WF k dll j
      ⟨hitems, hlen, hlnext, hlprev, hhead, hnextC, hprevC⟩ hj (by omega)
  have hNb := maxAvailBelow_bounds dll.n j
  have hNc := maxAvailBelow_cases dll.n j
  have hPb := minAvailAbove_bounds dll.n k j
  have hPle := minAvailAbove_le dll.n k j
  have hPgt : (j : Int) < minAvailAbove dll.n k j := by
    rcases hPb with h | h
    · exact h
    · omega
  have hPc := minAvailAbove_cases dll.n k j
  -- lengths of the mid links
  have hmidnl : mid.next.length = k + 1 := by
    rw [hmidnext, hremnext]
    simpa using hlnext
  -- the stale links of j as read from mid
  have hmabz := mab_set_zero dll.n j hjlen
  have hmiaz := mia_set_zero dll.n k j hjlen hj
  have hmidnextj : pyget mid.next (j : Int) 0 = maxAvailBelow dll.n j := by
    rw [pyget_int _ _ _ (by omega) (by rw [hmidnl]; omega), hcoe, hmidnext, hstaleN,
      hmabz j, if_neg (by omega : ¬ maxAvailBelow dll.n j = (j : Int))]
  have hmidprevj : pyget mid.prev (j : Int) 0 = minAvailAbove dll.n k j := by
    rw [pyget_int _ _ _ (by omega) (by rw [hmidplen, hlprev]; omega), hcoe,
      hmidprev j hj, hstaleP, hmiaz j,
      if_neg (by omega : ¬ minAvailAbove dll.n k j = (j : Int))]
  obtain ⟨hfn, hfitems, hftot, hfnext, hfprev, hfhead⟩ := add_fields mid (j : Int)
  rw [hmidprevj] at hfnext
  rw [hmidnextj] at hfprev hfhead
  -- the value of prev at j after the prev write of add equals the stale prev
  have hmidprevjD : mid.prev.getD j 0 = minAvailAbove dll.n k j := by
    rw [← hmidprevj, pyget_int _ _ _ (by omega) (by rw [hmidplen, hlprev]; omega), hcoe]
  have hfprevj : pyget (pyset mid.prev (maxAvailBelow dll.n j) (j : Int)) (j : Int) 0
      = minAvailAbove dll.n k j := by
    rcases hNc with hN1 | hN2
    · rw [hN1, pyset_neg_one _ _ (by
        intro hc
        rw [hc, List.length_nil] at hmidplen
        omega)]
      rw [pyget_int _ _ _ (by omega) (by simp [hmidplen, hlprev]; omega), hcoe]
      rw [hmidplen, hlprev]
      have hkk : k + 1 - 1 = k := rfl
      rw [hkk, getD_set_ne _ _ (by omega : k ≠ j)]
      exact hmidprevjD
    · obtain ⟨hN0, hNj, hNava⟩ := hN2
      rw [pyset_int _ _ _ hN0 (by rw [hmidplen, hlprev]; omega)]
      rw [pyget_int _ _ _ (by omega) (by simp [hmidplen, hlprev]; omega), hcoe]
      rw [getD_set_ne _ _ (by omega : (maxAvailBelow dll.n j).toNat ≠ j)]
      exact hmidprevjD
  rw [hfprevj, hmiditems, hitems] at hfhead
  -- next restores exactly
  have hnextPj : dll.next.getD (minAvailAbove dll.n k j).toNat 0 = (j : Int) := by
    have hcasek : (minAvailAbove dll.n k j).toNat = k
        ∨ 0 < dll.n.getD (minAvailAbove dll.n k j).toNat 0 := by
      rcases hPc with h | h
      · left; omega
      · right; exact h.2.2
    rw [hnextC (minAvailAbove dll.n k j).toNat (by omega) hcasek]
    apply maxAvailBelow_unique
    · right
      refine ⟨by omega, by omega, ?_⟩
      rw [hcoe]
      omega
    · intro i hi hji
      exact minAvailAbove_min dll.n k j i (by omega) (by omega)
  have hnext5 : (mid.add (j : Int)).next = dll.next := by
    rw [hfnext, pyset_int _ _ _ (by omega) (by rw [hmidnl]; omega), hmidnext, hremnext,
      List.set_set]
    exact set_getD_self (by omega) hnextPj
  -- head restores exactly
  have hhead5 : (mid.add (j : Int)).head = dll.head := by
    rw [hfhead]
    by_cases hPk : minAvailAbove dll.n k j = (k : Int)
    · rw [if_pos hPk]
      rw [hhead]
      symm
      apply maxAvailBelow_unique
      · right
        refine ⟨by omega, by omega, ?_⟩
        rw [hcoe]
        omega
      · intro i hi hji
        exact minAvailAbove_min dll.n k j i (by omega) (by omega)
    · rw [if_neg hPk, hmidhead, hremhead]
      have hjh : ¬ ((j : Int) = dll.head) := by
        intro hc
        apply hPk
        apply minAvailAbove_unique
        · left; rfl
        · intro i hji hik hik2
          apply maxAvailBelow_max dll.n k i hik2
          rw [← hhead, ← hc]
          omega
      rw [if_neg hjh]
  -- n restores exactly
  have hgetmid : pyget (mid.add (j : Int)).n (j : Int) 0 = 0 := by
    rw [hfn, hmidn, pyget_int _ _ _ (by omega) (by simp [hlen]; omega), hcoe]
    rw [getD_set_self _ _ hjlen]
  have hn5 : pyset (mid.add (j : Int)).n (j : Int)
      (pyget (mid.add (j : Int)).n (j : Int) 0 + 1) = dll.n := by
    rw [hgetmid, hfn, hmidn, pyset_int _ _ _ (by omega) (by simp [hlen]; omega), hcoe,
      List.set_set]
    exact set_getD_self hjlen (by omega)
  refine ⟨hn5, hnext5, hhead5, by rw [hfitems, hmiditems], by rw [hftot], ?_, ?_⟩
  · show (mid.add (j : Int)).prev.length = dll.prev.length
    rw [hfprev, pyset_length, hmidplen]
  · intro i hik
    show (mid.add (j : Int)).prev.getD i 0 = dll.prev.getD i 0
    rw [hfprev]
    rcases hNc with hN1 | hN2
    · rw [hN1, pyset_neg_one _ _ (by
        intro hc
        rw [hc, List.length_nil] at hmidplen
        omega)]
      rw [hmidplen, hlprev]
      have hkk : k + 1 - 1 = k := rfl
      rw [hkk, getD_set_ne _ _ (by omega : k ≠ i), hmidprev i hik]
      rcases hremprevform with ⟨_, hpe⟩ | ⟨hge, _⟩
      · rw [hpe, getD_set_ne _ _ (by omega : k ≠ i)]
      · omega
    · obtain ⟨hN0, hNj, hNava⟩ := hN2
      rw [pyset_int _ _ _ hN0 (by rw [hmidplen, hlprev]; omega)]
      rcases hremprevform with ⟨hne, _⟩ | ⟨_, hpe⟩
      · omega
      · by_cases hiN : i = (maxAvailBelow dll.n j).toNat
        · rw [hiN, getD_set_self _ _ (by rw [hmidplen, hlprev]; omega)]
          rw [hprevC (maxAvailBelow dll.n j).toNat (by omega) (by
            have := hNava
            omega)]
          symm
          apply minAvailAbove_unique
          · right
            refine ⟨by omega, by omega, ?_⟩
            rw [hcoe]
            omega
          · intro i2 hi2 hji2 hik2
            exact maxAvailBelow_max dll.n j i2 (by omega) (by omega)
        · rw [getD_set_ne _ _ (fun hc => hiN hc.symm), hmidprev i hik, hpe,
            getD_set_ne _ _ (fun hc => hiN hc.symm)]


theorem take_set_of_le_idx (xs : List Int) (m d : Nat) (v : Int) (h : d ≤ m) :
    (xs.set m v).take d = xs.take d := by
  apply List.ext_getElem?
  intro i
  rw [List.getElem?_take, List.getElem?_take]
  by_cases hid : i < d
  · rw [if_pos hid, if_pos hid, List.getElem?_set_ne (by omega : m ≠ i)]
  · rw [if_neg hid, if_neg hid]

theorem mem_nonneg_of_getD (xs : List Int)
    (h : ∀ i : Nat, i < xs.length → 0 ≤ xs.getD i 0) : ∀ x ∈ xs, 0 ≤ x := by
  intro x hx
  obtain ⟨i, hi, rfl⟩ := List.mem_iff_getElem.mp hx
  have := h i hi
  rwa [List.getD_eq_getElem?_getD, List.getElem?_eq_getElem hi] at this

theorem getD_le_sum (xs : List Int) (h : ∀ x ∈ xs, 0 ≤ x) (i : Nat)
    (hi : i < xs.length) : xs.getD i 0 ≤ xs.sum := by
  induction xs generalizing i with
  | nil => simp at hi
  | cons x xs ih =>
      cases i with
      | zero =>
          have : (0 : Int) ≤ xs.sum := List.sum_nonneg (fun y hy => h y (by simp [hy]))
          simp only [List.getD, List.sum_cons]
          simp only [List.get?_cons_zero]
          have hx0 : 0 ≤ x := h x (by simp)
          simp only [Option.getD_some]
          omega
      | succ i =>
          have hih := ih (fun y hy => h y (by simp [hy])) i (by simpa using hi)
          have hg : (x :: xs).getD (i + 1) 0 = xs.getD i 0 := rfl
          have hx0 : 0 ≤ x := h x (by simp)
          rw [hg, List.sum_cons]
          omega

theorem zero_of_sum_index (xs : List Int)
    (hnn : ∀ i : Nat, i < xs.length → 0 ≤ xs.getD i 0)
    (i0 : Nat) (hi0 : i0 < xs.length) (hsum : xs.getD i0 0 = xs.sum) :
    ∀ i : Nat, i < xs.length → i ≠ i0 → xs.getD i 0 = 0 := by
  intro i hi hne
  have h2sum : (xs.set i0 0).sum = 0 := by
    rw [sum_set_int _ hi0]
    omega
  have h2nn : ∀ x ∈ xs.set i0 0, 0 ≤ x := by
    apply mem_nonneg_of_getD
    intro i2 hi2
    rw [List.length_set] at hi2
    by_cases h : i2 = i0
    · rw [h, getD_set_self _ _ hi0]
    · rw [getD_set_ne _ _ (fun hc => h hc.symm)]
      exact hnn i2 hi2
  have hle : (xs.set i0 0).getD i 0 ≤ (xs.set i0 0).sum :=
    getD_le_sum _ h2nn i (by simpa using hi)
  rw [getD_set_ne _ _ (fun hc => hne hc.symm), h2sum] at hle
  have := hnn i hi
  omega

theorem drop_eq_replicate_of_getD (xs : List Int) (d : Nat) (v : Int)
    (h : ∀ i : Nat, d ≤ i → i < xs.length → xs.getD i 0 = v) :
    xs.drop d = List.replicate (xs.length - d) v := by
  induction xs generalizing d with
  | nil => simp
  | cons x xs ih =>
      cases d with
      | zero =>
          have hx : x = v := by
            have := h 0 (by omega) (by simp)
            simpa [List.getD] using this
          have htl := ih 0 (fun i hi hlen => by
            have := h (i + 1) (by omega) (by simp; omega)
            simpa [List.getD] using this)
          simp only [List.drop_zero] at htl ⊢
          have hlen : (x :: xs).length - 0 = xs.length + 1 := by simp
          rw [hlen, List.replicate_succ, hx]
          simp only [List.cons.injEq, true_and]
          simpa using htl
      | succ d =>
          simp only [List.drop_succ_cons]
          have htl := ih d (fun i hi hlen => by
            have := h (i + 1) (by omega) (by simp; omega)
            simpa [List.getD] using this)
          rw [htl]
          congr 1
          simp

theorem take_succ_getD (xs : List Int) (d : Nat) (hd : d < xs.length) :
    xs.take (d + 1) = xs.take d ++ [xs.getD d 0] := by
  rw [List.take_succ, List.getElem?_eq_getElem hd]
  rw [List.getD_eq_getElem?_getD, List.getElem?_eq_getElem hd]
  rfl

theorem getD_eq_of_take_eq (x y : List Int) (d m : Nat) (hmd : m < d)
    (h : x.take d = y.take d) (hmx : m < x.length) :
    x.getD m 0 = y.getD m 0 := by
  have h1 : (x.take d)[m]? = (y.take d)[m]? := by rw [h]
  rw [List.getElem?_take, List.getElem?_take, if_pos hmd, if_pos hmd] at h1
  rw [List.getD_eq_getElem?_getD, List.getD_eq_getElem?_getD, h1]

theorem completion_counts (k : Nat) (c a : List Int) (dll : DoubleLinkedList)
    (lenenc : LenEnc) (t p : Int) (hInv : GenInv k c a dll lenenc t p)
    (hlast : dll.n.getD (k - 1) 0 = c.sum - t + 1) :
    ∀ i : Nat, i < k → ((a.count (i : Int) : Int) = c.getD i 0) := by
  intro i hik
  have hlen : dll.n.length = k := hInv.wf.2.1
  have hzero : ∀ i2 : Nat, i2 < k → i2 ≠ k - 1 → dll.n.getD i2 0 = 0 := by
    intro i2 h2 hne
    apply zero_of_sum_index dll.n (fun i3 h3 => hInv.nonneg i3 (by omega)) (k - 1)
      (by omega) _ i2 (by omega) hne
    rw [hlast, hInv.nsum]
    omega
  have hsplit : a.count (i : Int)
      = (a.take (t - 1).toNat).count (i : Int) + (a.drop (t - 1).toNat).count (i : Int) := by
    conv_lhs => rw [← List.take_append_drop ((t - 1).toNat) a]
    rw [List.count_append]
  have hdrop : a.drop (t - 1).toNat
      = List.replicate (a.length - (t - 1).toNat) ((k : Int) - 1) := by
    apply drop_eq_replicate_of_getD
    intro i2 hi2 hlen2
    apply hInv.atail i2 _ hlen2
    have ht2 := hInv.tlow
    omega
  have htakelen : ((t - 1).toNat : Int) = t - 1 := by
    have := hInv.tlow
    omega
  have hdroplen : ((a.length - (t - 1).toNat : Nat) : Int) = c.sum - t + 1 := by
    have h1 := hInv.alen
    have h2 := hInv.tlow
    have h3 := hInv.thigh
    omega
  have hcts := hInv.counts i hik
  rw [hsplit, hdrop, List.count_replicate]
  by_cases hkk : i = k - 1
  · have hbeq : (((k : Int) - 1) == (i : Int)) = true := by
      simp only [beq_iff_eq]
      omega
    rw [if_pos hbeq]
    have hni : dll.n.getD i 0 = c.sum - t + 1 := by
      rw [hkk]; exact hlast
    push_cast
    omega
  · have hbeq : ¬ ((((k : Int) - 1) == (i : Int)) = true) := by
      simp only [beq_iff_eq]
      omega
    rw [if_neg hbeq]
    have hni : dll.n.getD i 0 = 0 := hzero i hik hkk
    push_cast
    omega


theorem mem_ite_single {α : Type} {cond : Prop} [Decidable cond] {a x : α}
    (h : x ∈ (if cond then [a] else [])) : x = a := by
  split at h
  · simpa using h
  · simp at h

theorem pairwise_ite_single {α : Type} {R : α → α → Prop} {cond : Prop}
    [Decidable cond] {a : α} : (if cond then [a] else []).Pairwise R := by
  split
  · simp
  · simp

theorem loop_step_main (fuel : Nat)
    (ihB : ∀ (k : Nat) (c a : List Int) (dll : DoubleLinkedList) (lenenc : LenEnc)
      (run : List Int) (t p r z b : Int) (RS : Bool),
      GenInv k c a dll lenenc t p →
      StateOK k dll lenenc
          (gen_step fuel (.build a t p r z b RS) dll lenenc run).2.1
          (gen_step fuel (.build a t p r z b RS) dll lenenc run).2.2.1
        ∧ OutsOK k c a t (gen_step fuel (.build a t p r z b RS) dll lenenc run).1)
    (ihL : ∀ (k : Nat) (c a : List Int) (dll : DoubleLinkedList) (lenenc : LenEnc)
      (run : List Int) (j t p r z b : Int) (RS : Bool),
      LoopInv k c a dll lenenc t p j →
      StateOK k dll lenenc
          (gen_step fuel (.loop j a t p r z b RS) dll lenenc run).2.1
          (gen_step fuel (.loop j a t p r z b RS) dll lenenc run).2.2.1
        ∧ OutsOK k c a t (gen_step fuel (.loop j a t p r z b RS) dll lenenc run).1
        ∧ ∀ x ∈ (gen_step fuel (.loop j a t p r z b RS) dll lenenc run).1,
            x.getD (t - 1).toNat 0 ≤ j)
    (k : Nat) (c a : List Int) (dll : DoubleLinkedList) (lenenc : LenEnc)
    (run : List Int) (j t p r z b : Int) (RS : Bool)
    (hInv : LoopInv k c a dll lenenc t p j) :
    StateOK k dll lenenc
        (gen_step (fuel + 1) (.loop j a t p r z b RS) dll lenenc run).2.1
        (gen_step (fuel + 1) (.loop j a t p r z b RS) dll lenenc run).2.2.1
      ∧ OutsOK k c a t (gen_step (fuel + 1) (.loop j a t p r z b RS) dll lenenc run).1
      ∧ ∀ x ∈ (gen_step (fuel + 1) (.loop j a t p r z b RS) dll lenenc run).1,
          x.getD (t - 1).toNat 0 ≤ j := by
  obtain ⟨hitems, hlen, hlnext, hlprev, hhead, hnextC, hprevC⟩ := hInv.wf
  have hWFdll : WF k dll := ⟨hitems, hlen, hlnext, hlprev, hhead, hnextC, hprevC⟩
  have hk2 := hInv.k2
  have htlow := hInv.tlow
  have hts := hInv.thigh
  have hplow := hInv.plow
  have hphigh := hInv.phigh
  have haInt := hInv.alen
  simp only [gen_step]
  by_cases hge : j ≥ pyget a (t - p - 1) 0
  swap
  · rw [if_neg hge]
    refine ⟨⟨rfl, rfl, rfl, rfl, rfl, rfl, fun i _ => rfl, rfl⟩, ⟨?_, ?_⟩, ?_⟩
    · intro x hx
      exact absurd hx (List.not_mem_nil x)
    · exact List.Pairwise.nil
    · intro x hx
      exact absurd hx (List.not_mem_nil x)
  · rw [if_pos hge]
    have hidx0 : 0 ≤ t - p - 1 := by omega
    have hidx1 : t - p - 1 < (a.length : Int) := by omega
    have hga : pyget a (t - p - 1) 0 = a.getD (t - p - 1).toNat 0 :=
      pyget_int _ _ _ hidx0 hidx1
    have hj0 : 0 ≤ j := by
      rw [hga] at hge
      have := (hInv.abound (t - p - 1).toNat (by omega)).1
      omega
    obtain ⟨jn, rfl⟩ : ∃ jn : Nat, (jn : Int) = j := ⟨j.toNat, by omega⟩
    have hjk : jn < k := by
      rcases hInv.jvalid with h | ⟨h1, h2, h3⟩
      · omega
      · omega
    have hcoe : ((jn : Int)).toNat = jn := by omega
    have hjava : 0 < dll.n.getD jn 0 := by
      rcases hInv.jvalid with h | ⟨h1, h2, h3⟩
      · omega
      · rwa [hcoe] at h3
    have hgj : pyget dll.n (jn : Int) 0 = dll.n.getD jn 0 := by
      rw [pyget_int _ _ _ (by omega) (by rw [hlen]; omega), hcoe]
    rw [hgj]
    have htm1 : ((t - 1).toNat : Int) = t - 1 := by omega
    have htlen : (t - 1).toNat < a.length := by omega
    have hps1 : pyset a (t - 1) (jn : Int) = a.set (t - 1).toNat (jn : Int) :=
      pyset_int _ _ _ (by omega) (by omega)
    rw [hps1]
    have hpsn : pyset dll.n (jn : Int) (dll.n.getD jn 0 - 1)
        = dll.n.set jn (dll.n.getD jn 0 - 1) := by
      rw [pyset_int _ _ _ (by omega) (by rw [hlen]; omega), hcoe]
    rw [hpsn]
    have hdll1n : pyget ({ dll with n := dll.n.set jn (dll.n.getD jn 0 - 1) }
        : DoubleLinkedList).n (jn : Int) 0 = dll.n.getD jn 0 - 1 := by
      show pyget (dll.n.set jn (dll.n.getD jn 0 - 1)) (jn : Int) 0 = _
      rw [pyget_int _ _ _ (by omega) (by simp [hlen]; omega), hcoe,
        getD_set_self _ _ (by omega)]
    rw [hdll1n]
    set D2 : DoubleLinkedList :=
      if dll.n.getD jn 0 - 1 = 0 then
        DoubleLinkedList.remove
          { dll with n := dll.n.set jn (dll.n.getD jn 0 - 1) } (jn : Int)
      else { dll with n := dll.n.set jn (dll.n.getD jn 0 - 1) } with hD2
    have hD2n : D2.n = dll.n.set jn (dll.n.getD jn 0 - 1) := by
      rw [hD2]
      by_cases hx1 : dll.n.getD jn 0 - 1 = 0
      · rw [if_pos hx1]
        exact (remove_fields _ _).1
      · rw [if_neg hx1]
    have hD2items : D2.n_items = dll.n_items := by
      rw [hD2]
      by_cases hx1 : dll.n.getD jn 0 - 1 = 0
      · rw [if_pos hx1]
        exact (remove_fields _ _).2.1
      · rw [if_neg hx1]
    have hD2tot : D2.n_tot = dll.n_tot := by
      rw [hD2]
      by_cases hx1 : dll.n.getD jn 0 - 1 = 0
      · rw [if_pos hx1]
        exact (remove_fields _ _).2.2.1
      · rw [if_neg hx1]
    have hD2wf : WF k D2 := by
      rw [hD2]
      by_cases hx1 : dll.n.getD jn 0 - 1 = 0
      · rw [if_pos hx1, hx1]
        exact (dec_remove_WF k dll jn hWFdll hjk hjava).1
      · rw [if_neg hx1]
        exact dec_keep_WF k dll jn hWFdll hjk (by omega)
    have htakedec : (a.set (t - 1).toNat (jn : Int)).take t.toNat
        = a.take (t - 1).toNat ++ [(jn : Int)] := by
      have h1 : t.toNat = (t - 1).toNat + 1 := by omega
      rw [h1, take_succ_getD _ _ (by simpa using htlen)]
      rw [getD_set_self _ _ htlen, take_set_of_le_idx _ _ _ _ (le_refl _)]
    have htt : (t + 1 - 1 : Int) = t := by ring
    have habound1 : ∀ i : Nat, i < (a.set (t - 1).toNat (jn : Int)).length →
        0 ≤ (a.set (t - 1).toNat (jn : Int)).getD i 0
        ∧ (a.set (t - 1).toNat (jn : Int)).getD i 0 ≤ (k : Int) - 1 := by
      intro i hi
      rw [List.length_set] at hi
      by_cases hieq : i = (t - 1).toNat
      · rw [hieq, getD_set_self _ _ htlen]
        constructor
        · omega
        · omega
      · rw [getD_set_ne _ _ (fun hc => hieq hc.symm)]
        exact hInv.abound i hi
    have hcounts1 : ∀ i : Nat, i < k →
        (((a.set (t - 1).toNat (jn : Int)).take (t + 1 - 1).toNat).count (i : Int) : Int)
          + D2.n.getD i 0 = c.getD i 0 := by
      intro i hik
      rw [htt, htakedec, List.count_append, hD2n]
      have hcts := hInv.counts i hik
      by_cases hieq : i = jn
      · rw [hieq, getD_set_self _ _ (by omega)]
        have hone : List.count ((jn : Int)) [(jn : Int)] = 1 := by
          simp
        rw [hone]
        rw [hieq] at hcts
        push_cast
        omega
      · rw [getD_set_ne _ _ (fun hc => hieq hc.symm)]
        have hzero : List.count ((i : Int)) [(jn : Int)] = 0 := by
          simp only [List.count_singleton]
          simp only [beq_iff_eq]
          rw [if_neg (by omega : ¬ ((jn : Int) = (i : Int)))]
        rw [hzero]
        push_cast
        omega
    have hInv2 : GenInv k c (a.set (t - 1).toNat (jn : Int)) D2
        (update_run_length (jn : Int) lenenc) (t + 1)
        (if (jn : Int) ≠ pyget (a.set (t - 1).toNat (jn : Int)) (t - p - 1) 0
          then t else p) :=
      { wf := hD2wf
        k2 := hk2
        clen := hInv.clen
        ntot := by rw [hD2tot]; exact hInv.ntot
        tlow := by omega
        thigh := by omega
        plow := by split <;> omega
        phigh := by split <;> omega
        alen := by rw [List.length_set]; exact haInt
        abound := habound1
        atail := by
          intro i hi hl
          rw [List.length_set] at hl
          rw [getD_set_ne _ _ (by omega : (t - 1).toNat ≠ i)]
          exact hInv.atail i (by omega) hl
        counts := hcounts1
        nonneg := by
          intro i hik
          rw [hD2n]
          by_cases hieq : i = jn
          · rw [hieq, getD_set_self _ _ (by omega)]
            omega
          · rw [getD_set_ne _ _ (fun hc => hieq hc.symm)]
            exact hInv.nonneg i hik
        nsum := by
          rw [hD2n, sum_set_int _ (by omega)]
          have := hInv.nsum
          omega
        lok := update_LenEncOK _ _ hInv.lok }
    set BE := (if check_rev (update_run_length (jn : Int) lenenc) = 0 then
        gen_step fuel
          (.build (a.set (t - 1).toNat (jn : Int)) (t + 1)
            (if (jn : Int) ≠ pyget (a.set (t - 1).toNat (jn : Int)) (t - p - 1) 0
              then t else p) t
            (if (jn : Int) ≠ D2.n_items - 1 then t + 1 else z)
            (update_run_length (jn : Int) lenenc).m false)
          D2 (update_run_length (jn : Int) lenenc) (pyset run (z - 1) (t - z))
      else if check_rev (update_run_length (jn : Int) lenenc) = 1 then
        gen_step fuel
          (.build (a.set (t - 1).toNat (jn : Int)) (t + 1)
            (if (jn : Int) ≠ pyget (a.set (t - 1).toNat (jn : Int)) (t - p - 1) 0
              then t else p) r
            (if (jn : Int) ≠ D2.n_items - 1 then t + 1 else z) b RS)
          D2 (update_run_length (jn : Int) lenenc) (pyset run (z - 1) (t - z))
      else ([], D2, update_run_length (jn : Int) lenenc, pyset run (z - 1) (t - z)))
      with hBE
    have hBEfacts : StateOK k D2 (update_run_length (jn : Int) lenenc) BE.2.1 BE.2.2.1
        ∧ OutsOK k c (a.set (t - 1).toNat (jn : Int)) (t + 1) BE.1 := by
      rw [hBE]
      by_cases hc0 : check_rev (update_run_length (jn : Int) lenenc) = 0
      · rw [if_pos hc0]
        exact ihB k c _ D2 _ _ (t + 1) _ t _ _ false hInv2
      · rw [if_neg hc0]
        by_cases hc1 : check_rev (update_run_length (jn : Int) lenenc) = 1
        · rw [if_pos hc1]
          exact ihB k c _ D2 _ _ (t + 1) _ r _ b RS hInv2
        · rw [if_neg hc1]
          refine ⟨⟨rfl, rfl, rfl, rfl, rfl, rfl, fun i _ => rfl, rfl⟩, ?_, ?_⟩
          · intro x hx
            exact absurd hx (List.not_mem_nil x)
          · exact List.Pairwise.nil
    obtain ⟨hSn, hSnext, hShead, hSitems, hStot, hSplen, hSprev, hSle⟩ := hBEfacts.1
    set DLL4 := if pyget BE.2.1.n (jn : Int) 0 = 0 then BE.2.1.add (jn : Int) else BE.2.1
      with hDLL4
    set DLL5 := { DLL4 with
        n := pyset DLL4.n (jn : Int) (pyget DLL4.n (jn : Int) 0 + 1) } with hDLL5
    have hD2len : D2.n.length = k := by
      rw [hD2n]
      simpa using hlen
    have hmidfacts : DLL5.n = dll.n ∧ DLL5.next = dll.next ∧ DLL5.head = dll.head
        ∧ DLL5.n_items = dll.n_items ∧ DLL5.n_tot = dll.n_tot
        ∧ DLL5.prev.length = dll.prev.length
        ∧ (∀ i : Nat, i < k → DLL5.prev.getD i 0 = dll.prev.getD i 0) := by
      by_cases hx1 : dll.n.getD jn 0 - 1 = 0
      · -- the count of jn was exhausted: remove happened, add restores
        have hx1v : dll.n.getD jn 0 = 1 := by omega
        have hD2eq : D2 = ({ dll with n := dll.n.set jn 0 }).remove (jn : Int) := by
          rw [hD2, if_pos hx1, hx1]
        obtain ⟨hdwf, hdn, hdtot, hdsn, hdsp, hditems, hdnext, hdprevf, hdhead⟩ :=
          dec_remove_WF k dll jn hWFdll hjk hjava
        have hc4 : pyget BE.2.1.n (jn : Int) 0 = 0 := by
          rw [hSn, hD2eq, hdn]
          rw [pyget_int _ _ _ (by omega) (by simp [hlen]; omega), hcoe,
            getD_set_self _ _ (by omega)]
        rw [hDLL5, hDLL4, if_pos hc4]
        have hcyc := remove_add_cycle k dll BE.2.1 jn hWFdll hjk hx1v
          (by rw [hSn, hD2eq, hdn])
          (by rw [hSnext, hD2eq])
          (by rw [hShead, hD2eq])
          (by rw [hSitems, hD2items])
          (by
            rw [hSplen]
            have hplen2 := hD2wf.2.2.2.1
            rw [hplen2, hlprev])
          (fun i hik => by rw [hSprev i hik, hD2eq])
        exact ⟨hcyc.1, hcyc.2.1, hcyc.2.2.1, hcyc.2.2.2.1,
          (hcyc.2.2.2.2.1).trans (hStot.trans hD2tot), hcyc.2.2.2.2.2.1,
          hcyc.2.2.2.2.2.2⟩
      · -- the count of jn stayed positive: no remove, no add
        have hD2eq2 : D2 = { dll with n := dll.n.set jn (dll.n.getD jn 0 - 1) } := by
          rw [hD2, if_neg hx1]
        have hget : pyget BE.2.1.n (jn : Int) 0 = dll.n.getD jn 0 - 1 := by
          rw [hSn, hD2n]
          rw [pyget_int _ _ _ (by omega) (by simp [hlen]; omega), hcoe,
            getD_set_self _ _ (by omega)]
        have hc4 : ¬ (pyget BE.2.1.n (jn : Int) 0 = 0) := by
          rw [hget]
          omega
        rw [hDLL5, hDLL4, if_neg hc4]
        have hn5 : pyset BE.2.1.n (jn : Int) (pyget BE.2.1.n (jn : Int) 0 + 1)
            = dll.n := by
          rw [hget, hSn, hD2n, pyset_int _ _ _ (by omega) (by simp [hlen]; omega), hcoe,
            List.set_set]
          have harith : dll.n.getD jn 0 - 1 + 1 = dll.n.getD jn 0 := by ring
          rw [harith]
          exact set_getD_self (by omega) rfl
        refine ⟨hn5, ?_, ?_, ?_, ?_, ?_, ?_⟩
        · show BE.2.1.next = dll.next
          rw [hSnext, hD2eq2]
        · show BE.2.1.head = dll.head
          rw [hShead, hD2eq2]
        · show BE.2.1.n_items = dll.n_items
          rw [hSitems, hD2eq2]
        · show BE.2.1.n_tot = dll.n_tot
          rw [hStot, hD2eq2]
        · show BE.2.1.prev.length = dll.prev.length
          rw [hSplen, hD2eq2]
        · intro i hik
          show BE.2.1.prev.getD i 0 = dll.prev.getD i 0
          rw [hSprev i hik, hD2eq2]
    obtain ⟨hM1, hM2, hM3, hM4, hM5, hM6, hM7⟩ := hmidfacts
    have hDLL5wf : WF k DLL5 := WF_congr k dll DLL5 hWFdll hM1 hM2 hM3 hM4 hM6 hM7
    have hlen3 : restore_run_length BE.2.2.1 = lenenc := by
      rw [hSle]
      exact restore_update lenenc (jn : Int) hInv.lok
    have hD5nl : DLL5.next.length = k + 1 := by
      rw [hM2]
      exact hlnext
    have hj2 : pyget DLL5.next (jn : Int) 0 = maxAvailBelow dll.n jn := by
      rw [hM2]
      rw [pyget_int _ _ _ (by omega) (by rw [hlnext]; omega), hcoe]
      exact hnextC jn (by omega) (Or.inr hjava)
    have hLI2 : LoopInv k c (a.set (t - 1).toNat (jn : Int)) DLL5
        (restore_run_length BE.2.2.1) t p (pyget DLL5.next (jn : Int) 0) :=
      { wf := hDLL5wf
        k2 := hk2
        clen := hInv.clen
        ntot := by rw [hM5]; exact hInv.ntot
        tlow := htlow
        thigh := hts
        plow := hplow
        phigh := hphigh
        alen := by rw [List.length_set]; exact haInt
        abound := habound1
        atail := by
          intro i hi hl
          rw [List.length_set] at hl
          rw [getD_set_ne _ _ (by omega : (t - 1).toNat ≠ i)]
          exact hInv.atail i hi hl
        counts := by
          intro i hik
          rw [take_set_of_le_idx _ _ _ _ (le_refl _), hM1]
          exact hInv.counts i hik
        nonneg := by
          intro i hik
          rw [hM1]
          exact hInv.nonneg i hik
        nsum := by
          rw [hM1]
          exact hInv.nsum
        lok := by
          rw [hlen3]
          exact hInv.lok
        jvalid := by
          rw [hj2]
          rcases maxAvailBelow_cases dll.n jn with h | h
          · left; exact h
          · right
            refine ⟨h.1, by omega, ?_⟩
            rw [hM1]
            exact h.2.2 }
    have hres2 := ihL k c (a.set (t - 1).toNat (jn : Int)) DLL5
      (restore_run_length BE.2.2.1) BE.2.2.2 (pyget DLL5.next (jn : Int) 0)
      t p r z b RS hLI2
    obtain ⟨⟨hTn, hTnext, hThead, hTitems, hTtot, hTplen, hTprev, hTle⟩, hO2, hB2⟩ := hres2
    have hmabLt : maxAvailBelow dll.n jn < (jn : Int) :=
      (maxAvailBelow_bounds dll.n jn).2
    -- facts shared by the output arguments
    have hx_take : ∀ x ∈ BE.1, x.take (t - 1).toNat = a.take (t - 1).toNat ∧
        x.getD (t - 1).toNat 0 = (jn : Int) ∧ x.length = a.length := by
      intro x hx
      obtain ⟨hlen2, htk, _⟩ := hBEfacts.2.1 x hx
      rw [htt] at htk
      have hxlen : x.length = a.length := by
        rw [hlen2, List.length_set]
      have htk1 : x.take (t - 1).toNat = a.take (t - 1).toNat := by
        have h2 := congrArg (List.take (t - 1).toNat) htk
        have hmin : min (t - 1).toNat t.toNat = (t - 1).toNat := by omega
        rw [List.take_take, List.take_take, hmin] at h2
        rw [h2, take_set_of_le_idx _ _ _ _ (le_refl _)]
      have hgd : x.getD (t - 1).toNat 0 = (jn : Int) := by
        have := getD_eq_of_take_eq x (a.set (t - 1).toNat (jn : Int)) t.toNat
          (t - 1).toNat (by omega) htk (by rw [hxlen]; exact htlen)
        rw [this, getD_set_self _ _ htlen]
      exact ⟨htk1, hgd, hxlen⟩
    have hy_facts : ∀ y ∈ (gen_step fuel
        (.loop (pyget DLL5.next (jn : Int) 0) (a.set (t - 1).toNat (jn : Int)) t p r z b RS)
        DLL5 (restore_run_length BE.2.2.1) BE.2.2.2).1,
        y.take (t - 1).toNat = a.take (t - 1).toNat ∧ y.length = a.length
        ∧ y.getD (t - 1).toNat 0 < (jn : Int) := by
      intro y hy
      obtain ⟨hlen2, htk, _⟩ := hO2.1 y hy
      have hyb := hB2 y hy
      rw [hj2] at hyb
      refine ⟨?_, by rw [hlen2, List.length_set], by omega⟩
      rw [htk, take_set_of_le_idx _ _ _ _ (le_refl _)]
    refine ⟨⟨hTn.trans hM1, hTnext.trans hM2, hThead.trans hM3, hTitems.trans hM4,
      hTtot.trans hM5, hTplen.trans hM6,
      fun i hik => (hTprev i hik).trans (hM7 i hik), hTle.trans hlen3⟩, ⟨?_, ?_⟩, ?_⟩
    · intro x hx
      rcases List.mem_append.mp hx with hxl | hxr
      · obtain ⟨htk1, hgd, hxlen⟩ := hx_take x hxl
        obtain ⟨_, _, hcnt⟩ := hBEfacts.2.1 x hxl
        exact ⟨hxlen, htk1, hcnt⟩
      · obtain ⟨htk1, hxlen, _⟩ := hy_facts x hxr
        obtain ⟨_, _, hcnt⟩ := hO2.1 x hxr
        exact ⟨hxlen, htk1, hcnt⟩
    · apply List.pairwise_append.mpr
      refine ⟨hBEfacts.2.2, hO2.2, ?_⟩
      intro x hxl y hyr
      obtain ⟨htk1, hgd, hxlen⟩ := hx_take x hxl
      obtain ⟨htk2, hylen, hyd⟩ := hy_facts y hyr
      apply listLtb_of_take_eq (t - 1).toNat y x (by omega) (by omega)
        (by rw [htk1, htk2])
      omega
    · intro x hx
      rcases List.mem_append.mp hx with hxl | hxr
      · rw [(hx_take x hxl).2.1]
      · have := (hy_facts x hxr).2.2
        omega


theorem gen_main (fuel : Nat) :
    (∀ (k : Nat) (c a : List Int) (dll : DoubleLinkedList) (lenenc : LenEnc)
      (run : List Int) (t p r z b : Int) (RS : Bool),
      GenInv k c a dll lenenc t p →
      StateOK k dll lenenc
          (gen_step fuel (.build a t p r z b RS) dll lenenc run).2.1
          (gen_step fuel (.build a t p r z b RS) dll lenenc run).2.2.1
        ∧ OutsOK k c a t (gen_step fuel (.build a t p r z b RS) dll lenenc run).1)
    ∧ (∀ (k : Nat) (c a : List Int) (dll : DoubleLinkedList) (lenenc : LenEnc)
      (run : List Int) (j t p r z b : Int) (RS : Bool),
      LoopInv k c a dll lenenc t p j →
      StateOK k dll lenenc
          (gen_step fuel (.loop j a t p r z b RS) dll lenenc run).2.1
          (gen_step fuel (.loop j a t p r z b RS) dll lenenc run).2.2.1
        ∧ OutsOK k c a t (gen_step fuel (.loop j a t p r z b RS) dll lenenc run).1
        ∧ ∀ x ∈ (gen_step fuel (.loop j a t p r z b RS) dll lenenc run).1,
            x.getD (t - 1).toNat 0 ≤ j) := by
  induction fuel with
  | zero =>
      constructor
      · intro k c a dll lenenc run t p r z b RS hInv
        refine ⟨⟨rfl, rfl, rfl, rfl, rfl, rfl, fun i _ => rfl, rfl⟩, ?_, ?_⟩
        · intro x hx
          exact absurd hx (List.not_mem_nil x)
        · exact List.Pairwise.nil
      · intro k c a dll lenenc run j t p r z b RS hInv
        refine ⟨⟨rfl, rfl, rfl, rfl, rfl, rfl, fun i _ => rfl, rfl⟩, ⟨?_, ?_⟩, ?_⟩
        · intro x hx
          exact absurd hx (List.not_mem_nil x)
        · exact List.Pairwise.nil
        · intro x hx
          exact absurd hx (List.not_mem_nil x)
  | succ fuel ih =>
      obtain ⟨ihB, ihL⟩ := ih
      constructor
      · -- a call of build_bracelets
        intro k c a dll lenenc run t p r z b RS hInv
        obtain ⟨hitems, hlen, hlnext, hlprev, hhead, hnextC, hprevC⟩ := hInv.wf
        have hk2 := hInv.k2
        have hnne : dll.n ≠ [] := by
          intro hc
          rw [hc] at hlen
          simp at hlen
          omega
        have hgl : pyget dll.n (-1) 0 = dll.n.getD (k - 1) 0 := by
          rw [pyget_neg_one _ _ hnne, hlen]
        simp only [gen_step]
        rw [hgl]
        by_cases hcomp : dll.n.getD (k - 1) 0 = dll.n_tot - t + 1
        · rw [if_pos hcomp]
          refine ⟨⟨rfl, rfl, rfl, rfl, rfl, rfl, fun i _ => rfl, rfl⟩, ?_, ?_⟩
          · intro x hx
            have hxa : x = a := mem_ite_single hx
            rw [hxa]
            refine ⟨rfl, rfl, ?_⟩
            exact completion_counts k c a dll lenenc t p hInv
              (by rw [hcomp, hInv.ntot])
          · exact pairwise_ite_single
        · rw [if_neg hcomp]
          by_cases hzero : pyget dll.n 0 0 ≠ dll.n_tot - t + 1
          · rw [if_pos hzero]
            have hts : t ≤ c.sum := by
              by_contra hc
              have ht1 : t = c.sum + 1 := by
                have := hInv.thigh
                omega
              apply hcomp
              have hsum0 : dll.n.sum = 0 := by
                rw [hInv.nsum, ht1]
                ring
              have hnn : ∀ x ∈ dll.n, 0 ≤ x :=
                mem_nonneg_of_getD _ (fun i hi => hInv.nonneg i (by omega))
              have hle := getD_le_sum dll.n hnn (k - 1) (by omega)
              have hge2 := hInv.nonneg (k - 1) (by omega)
              rw [hInv.ntot, ht1]
              rw [hsum0] at hle
              omega
            have hLI : LoopInv k c a dll lenenc t p dll.head :=
              { wf := hInv.wf
                k2 := hInv.k2
                clen := hInv.clen
                ntot := hInv.ntot
                tlow := hInv.tlow
                thigh := hts
                plow := hInv.plow
                phigh := hInv.phigh
                alen := hInv.alen
                abound := hInv.abound
                atail := fun i hi hl => hInv.atail i (by omega) hl
                counts := hInv.counts
                nonneg := hInv.nonneg
                nsum := hInv.nsum
                lok := hInv.lok
                jvalid := by
                  rw [hhead]
                  rcases maxAvailBelow_cases dll.n k with h | h
                  · left; exact h
                  · right
                    exact ⟨h.1, h.2.1, h.2.2⟩ }
            have hres := ihL k c a dll lenenc run dll.head t p r z b
              (if 2 * (t - 1) > 2 * r + (dll.n_tot - r) then
                if pyget a (t - 2) 0 > pyget a (dll.n_tot - t + r + 1) 0 then false
                else if pyget a (t - 2) 0 < pyget a (dll.n_tot - t + r + 1) 0 then true
                else RS
              else RS) hLI
            exact ⟨hres.1, hres.2.1⟩
          · rw [if_neg hzero]
            refine ⟨⟨rfl, rfl, rfl, rfl, rfl, rfl, fun i _ => rfl, rfl⟩, ?_, ?_⟩
            · intro x hx
              exact absurd hx (List.not_mem_nil x)
            · exact List.Pairwise.nil
      · -- one iteration of the while loop
        intro k c a dll lenenc run j t p r z b RS hInv
        exact loop_step_main fuel ihB ihL k c a dll lenenc run j t p r z b RS hInv


/-! ### The initial call: get_bracelets on a well formed content vector -/

theorem sum_ge_length (xs : List Int)
    (h : ∀ i : Nat, i < xs.length → 0 < xs.getD i 0) :
    (xs.length : Int) ≤ xs.sum := by
  induction xs with
  | nil => simp
  | cons a xs ih =>
      have ha : 0 < a := by have := h 0 (by simp); simpa using this
      have htl : ∀ i : Nat, i < xs.length → 0 < xs.getD i 0 := by
        intro i hi
        have := h (i + 1) (by simp; omega)
        simpa using this
      have := ih htl
      simp only [List.length_cons, List.sum_cons]
      push_cast
      omega

theorem getD_replicate (m : Nat) (v : Int) (i : Nat) (hi : i < m) :
    (List.replicate m v).getD i 0 = v := by
  simp [List.getD_eq_getElem?_getD, List.getElem?_replicate, hi]

theorem take_one_eq_getD (xs : List Int) (h : 0 < xs.length) :
    xs.take 1 = [xs.getD 0 0] := by
  cases xs with
  | nil => simp at h
  | cons a l => simp [List.getD]

theorem head_eq_of_take_one (xs : List Int) (v : Int) (h : xs.take 1 = [v]) :
    xs.head? = some v := by
  cases xs with
  | nil => simp at h
  | cons a l =>
      simp only [List.take_succ_cons, List.take_zero, List.cons.injEq] at h
      simp [h.1]

theorem get_bracelets_main (c : List Int) (hk : 2 ≤ c.length)
    (hpos : ∀ i : Nat, i < c.length → 0 < c.getD i 0) :
    (∀ x ∈ (get_bracelets (DoubleLinkedList.make c)).1,
      x.length = c.sum.toNat
      ∧ x.take 1 = [0]
      ∧ (∀ i : Nat, i < c.length → ((x.count (i : Int) : Int) = c.getD i 0)))
    ∧ (get_bracelets (DoubleLinkedList.make c)).1.Pairwise
        (fun x y => listLtb y x = true) := by
  have hsumlen : (c.length : Int) ≤ c.sum := sum_ge_length c hpos
  have hkc : (2 : Int) ≤ (c.length : Int) := by exact_mod_cast hk
  have hsum2 : (2 : Int) ≤ c.sum := by omega
  have hlc0 : 0 < c.length := by omega
  have hWFmake : WF c.length (DoubleLinkedList.make c) := make_WF c hpos
  have hc0 : 0 < c.getD 0 0 := hpos 0 hlc0
  simp only [get_bracelets, build_bracelets]
  have hmtot : (DoubleLinkedList.make c).n_tot = c.sum := rfl
  have hmitems : (DoubleLinkedList.make c).n_items = (c.length : Int) := rfl
  have hmn : (DoubleLinkedList.make c).n = c := rfl
  rw [hmtot, hmitems, hmn]
  have hg0 : pyget c 0 0 = c.getD 0 0 := by
    rw [pyget_int c 0 0 (by omega) (by exact_mod_cast hlc0)]
    rfl
  rw [hg0]
  have hpsn : pyset c 0 (c.getD 0 0 - 1) = c.set 0 (c.getD 0 0 - 1) := by
    rw [pyset_int c 0 _ (by omega) (by exact_mod_cast hlc0)]
    rfl
  rw [hpsn]
  have hA : pyset (List.replicate c.sum.toNat ((c.length : Int) - 1)) 0 0
      = (List.replicate c.sum.toNat ((c.length : Int) - 1)).set 0 0 := by
    rw [pyset_int _ 0 0 (by omega) (by simp; omega)]
    rfl
  rw [hA]
  set D1 : DoubleLinkedList :=
    ⟨c.set 0 (c.getD 0 0 - 1), (c.length : Int), c.sum,
      (DoubleLinkedList.make c).next, (DoubleLinkedList.make c).prev,
      (DoubleLinkedList.make c).head⟩ with hD1
  have hD1n : D1.n = c.set 0 (c.getD 0 0 - 1) := rfl
  have hdll1n : pyget D1.n 0 0 = c.getD 0 0 - 1 := by
    rw [hD1n]
    rw [pyget_int _ 0 _ (by omega) (by simp; exact_mod_cast hlc0)]
    rw [Int.toNat_zero, getD_set_self _ _ hlc0]
  rw [hdll1n]
  set D0 : DoubleLinkedList :=
    if c.getD 0 0 - 1 = 0 then D1.remove 0 else D1 with hD0
  have hD0n : D0.n = c.set 0 (c.getD 0 0 - 1) := by
    rw [hD0]
    by_cases hx0 : c.getD 0 0 - 1 = 0
    · rw [if_pos hx0]
      exact (remove_fields _ _).1
    · rw [if_neg hx0]
  have hD0tot : D0.n_tot = c.sum := by
    rw [hD0]
    by_cases hx0 : c.getD 0 0 - 1 = 0
    · rw [if_pos hx0]
      exact (remove_fields _ _).2.2.1
    · rw [if_neg hx0]
  have hD0wf : WF c.length D0 := by
    rw [hD0]
    by_cases hx0 : c.getD 0 0 - 1 = 0
    · rw [if_pos hx0, hD1, hx0]
      exact (dec_remove_WF c.length (DoubleLinkedList.make c) 0 hWFmake hlc0 hc0).1
    · rw [if_neg hx0, hD1]
      exact dec_keep_WF c.length (DoubleLinkedList.make c) 0 hWFmake hlc0
        (by show 1 < (DoubleLinkedList.make c).n.getD 0 0; rw [hmn]; omega)
  have h21 : ((2 : Int) - 1).toNat = 1 := by decide
  have hInv : GenInv c.length c
      ((List.replicate c.sum.toNat ((c.length : Int) - 1)).set 0 0) D0
      { m := 1, runs := [(0, 1)] } 2 1 :=
    { wf := hD0wf
      k2 := hk
      clen := rfl
      ntot := hD0tot
      tlow := le_refl 2
      thigh := by omega
      plow := le_refl 1
      phigh := by decide
      alen := by
        simp only [List.length_set, List.length_replicate]
        omega
      abound := by
        intro i hi
        simp only [List.length_set, List.length_replicate] at hi
        by_cases hieq : i = 0
        · rw [hieq, getD_set_self _ _ (by simp; omega)]
          constructor
          · omega
          · omega
        · rw [getD_set_ne _ _ (fun hcon => hieq hcon.symm),
            getD_replicate _ _ _ hi]
          constructor
          · omega
          · omega
      atail := by
        intro i hi hl
        simp only [List.length_set, List.length_replicate] at hl
        rw [getD_set_ne _ _ (by omega : (0 : Nat) ≠ i),
          getD_replicate _ _ _ hl]
      counts := by
        intro i hik
        rw [h21, take_one_eq_getD _ (by simp; omega),
          getD_set_self _ _ (by simp; omega), hD0n]
        by_cases hieq : i = 0
        · have hone : List.count ((0 : Nat) : Int) [(0 : Int)] = 1 := by simp
          rw [hieq, getD_set_self _ _ hlc0, hone]
          push_cast
          omega
        · rw [getD_set_ne _ _ (fun hcon => hieq hcon.symm)]
          have hzero : List.count ((i : Nat) : Int) [(0 : Int)] = 0 := by
            simp only [List.count_singleton, beq_iff_eq]
            rw [if_neg (by omega : ¬ ((0 : Int) = (i : Int)))]
          rw [hzero]
          push_cast
          omega
      nonneg := by
        intro i hik
        rw [hD0n]
        by_cases hieq : i = 0
        · rw [hieq, getD_set_self _ _ hlc0]
          omega
        · rw [getD_set_ne _ _ (fun hcon => hieq hcon.symm)]
          have := hpos i hik
          omega
      nsum := by
        rw [hD0n, sum_set_int _ hlc0]
        omega
      lok := by
        refine ⟨by simp, ?_⟩
        intro sc hsc
        simp only [List.mem_singleton] at hsc
        subst hsc
        simp
      }
  have hmain := (gen_main (genFuel (DoubleLinkedList.make c))).1 c.length c
    ((List.replicate c.sum.toNat ((c.length : Int) - 1)).set 0 0) D0
    { m := 1, runs := [(0, 1)] } (List.replicate c.sum.toNat 0) 2 1 1 2 1 false hInv
  obtain ⟨hSO, hOut⟩ := hmain
  refine ⟨?_, hOut.2⟩
  intro x hx
  obtain ⟨hl, htk, hcnt⟩ := hOut.1 x hx
  rw [h21] at htk
  refine ⟨?_, ?_, hcnt⟩
  · rw [hl]
    simp
  · rw [htk, take_one_eq_getD _ (by simp; omega),
      getD_set_self _ _ (by simp; omega)]

/-! ### The sorted bracelet list of Bracelets.__init__ -/

theorem braceletsOf_mem_props (c : List Int) (hk : 2 ≤ c.length)
    (hpos : ∀ i : Nat, i < c.length → 0 < c.getD i 0) :
    ∀ x ∈ braceletsOf c,
      x.length = c.sum.toNat ∧ x.head? = some 0
      ∧ (∀ i : Nat, i < c.length → ((x.count (i : Int) : Int) = c.getD i 0)) := by
  intro x hx
  have hperm := List.perm_insertionSort listLe
    (get_bracelets (DoubleLinkedList.make c)).1
  have hx2 : x ∈ (get_bracelets (DoubleLinkedList.make c)).1 := by
    simp only [braceletsOf] at hx
    exact hperm.mem_iff.mp hx
  obtain ⟨h1, h2, h3⟩ := (get_bracelets_main c hk hpos).1 x hx2
  exact ⟨h1, head_eq_of_take_one _ _ h2, h3⟩

theorem braceletsOf_nodup (c : List Int) (hk : 2 ≤ c.length)
    (hpos : ∀ i : Nat, i < c.length → 0 < c.getD i 0) :
    (braceletsOf c).Pairwise (fun x y : List Int => x ≠ y) := by
  have hne : (get_bracelets (DoubleLinkedList.make c)).1.Pairwise
      (fun x y : List Int => x ≠ y) := by
    have hpw := (get_bracelets_main c hk hpos).2
    exact hpw.imp (fun hxy hcon => by
      rw [hcon] at hxy
      rw [listLtb_irrefl] at hxy
      cases hxy)
  have hperm := List.perm_insertionSort listLe
    (get_bracelets (DoubleLinkedList.make c)).1
  have hnd : (braceletsOf c).Nodup := hperm.nodup_iff.mpr hne
  exact hnd

/-- C1: for the content vector [1, 2, 3] the sorted bracelet list of
Bracelets is exactly the six sequences of the specification, in this
order, and as_tuple returns exactly their six run length forms, in the
same order. -/
theorem bracelets_123_oracle :
    braceletsOf [1, 2, 3]
      = [[0, 1, 1, 2, 2, 2], [0, 1, 2, 1, 2, 2], [0, 1, 2, 2, 1, 2],
         [0, 1, 2, 2, 2, 1], [0, 2, 1, 1, 2, 2], [0, 2, 1, 2, 1, 2]]
    ∧ asTupleOf [1, 2, 3]
      = [[(0, 1), (1, 2), (2, 3)],
         [(0, 1), (1, 1), (2, 1), (1, 1), (2, 2)],
         [(0, 1), (1, 1), (2, 2), (1, 1), (2, 1)],
         [(0, 1), (1, 1), (2, 3), (1, 1)],
         [(0, 1), (2, 1), (1, 2), (2, 2)],
         [(0, 1), (2, 1), (1, 1), (2, 1), (1, 1), (2, 1)]] := by
  constructor
  · decide
  · decide

/-- C2: for every content vector with at least two entries, all of them
positive, every bracelet of the sorted list has length equal to the sum
of the multiplicities and realizes each symbol i exactly content[i]
times. -/
theorem bracelets_length_counts (c : List Int) (hk : 2 ≤ c.length)
    (hpos : ∀ i : Nat, i < c.length → 0 < c.getD i 0) :
    ∀ x ∈ braceletsOf c,
      (x.length : Int) = c.sum
      ∧ (∀ i : Nat, i < c.length → ((x.count (i : Int) : Int) = c.getD i 0)) := by
  intro x hx
  obtain ⟨h1, h2, h3⟩ := braceletsOf_mem_props c hk hpos x hx
  refine ⟨?_, h3⟩
  rw [h1]
  have := sum_ge_length c hpos
  omega

theorem bracelets_length_counts_witness :
    ((([0, 1, 1] : List Int).length : Int) = List.sum ([1, 2] : List Int))
    ∧ ((([0, 1, 1] : List Int).count ((1 : Nat) : Int) : Int)
        = List.getD ([1, 2] : List Int) 1 0) := by
  have h := bracelets_length_counts [1, 2] (by decide) (by decide) [0, 1, 1] (by decide)
  exact ⟨h.1, h.2 1 (by decide)⟩

/-- C3: for every content vector with at least two entries, all of them
positive, the sorted bracelet list exposed by Bracelets is strictly
increasing in the lexicographic list order, hence has no duplicate. -/
theorem bracelets_strictly_sorted (c : List Int) (hk : 2 ≤ c.length)
    (hpos : ∀ i : Nat, i < c.length → 0 < c.getD i 0) :
    (braceletsOf c).Pairwise (fun x y => listLtb x y = true) := by
  have hsorted : (braceletsOf c).Pairwise listLe :=
    List.sorted_insertionSort listLe (get_bracelets (DoubleLinkedList.make c)).1
  have hnd := braceletsOf_nodup c hk hpos
  refine (hsorted.and hnd).imp ?_
  intro x y hxy
  obtain ⟨hle, hneq⟩ := hxy
  cases hxy2 : listLtb x y with
  | true => rfl
  | false => exact absurd (listLtb_eq_of_not x y hxy2 hle) hneq

theorem bracelets_strictly_sorted_witness :
    (braceletsOf [1, 2]).Pairwise (fun x y => listLtb x y = true) :=
  bracelets_strictly_sorted [1, 2] (by decide) (by decide)

/-- C5: for every content vector with at least two entries, all of them
positive, expanding the run length form produced by as_tuple recovers
every bracelet of the sorted list exactly. -/
theorem asTuple_roundtrip (c : List Int) (hk : 2 ≤ c.length)
    (hpos : ∀ i : Nat, i < c.length → 0 < c.getD i 0) :
    (asTupleOf c).map expandRLE = braceletsOf c := by
  simp only [asTupleOf, List.map_map]
  have h : ∀ x ∈ braceletsOf c, (expandRLE ∘ compressRLE) x = id x := by
    intro x hx
    obtain ⟨h1, h2, h3⟩ := braceletsOf_mem_props c hk hpos x hx
    show expandRLE (compressRLE x) = x
    exact expand_compressRLE x h2
  rw [List.map_congr_left h, List.map_id]

theorem asTuple_roundtrip_witness :
    (asTupleOf [1, 2]).map expandRLE = braceletsOf [1, 2] :=
  asTuple_roundtrip [1, 2] (by decide) (by decide)

/-! ### Two symbol contents: the count of emitted bracelets -/

theorem get_bracelets_one_m (m : Int) (hm : 1 ≤ m) :
    (get_bracelets (DoubleLinkedList.make [1, m])).1
      = [0 :: List.replicate m.toNat 1] := by
  have hmtot : (DoubleLinkedList.make [1, m]).n_tot = 1 + m := by
    show List.sum [1, m] = 1 + m
    simp
  have hmitems : (DoubleLinkedList.make [1, m]).n_items = 2 := rfl
  have hmn : (DoubleLinkedList.make [1, m]).n = [1, m] := rfl
  have hmnext : (DoubleLinkedList.make [1, m]).next = [-1, 0, 1] := rfl
  have hmprev : (DoubleLinkedList.make [1, m]).prev = [1, 2, 3] := rfl
  have hmhead : (DoubleLinkedList.make [1, m]).head = 1 := rfl
  obtain ⟨f, hf⟩ : ∃ f : Nat, genFuel (DoubleLinkedList.make [1, m]) = f + 1 := by
    refine ⟨genFuel (DoubleLinkedList.make [1, m]) - 1, ?_⟩
    have h1 : 1 ≤ genFuel (DoubleLinkedList.make [1, m]) := by
      unfold genFuel
      exact Nat.one_le_iff_ne_zero.mpr (Nat.mul_ne_zero (by omega) (by omega))
    omega
  simp only [get_bracelets, build_bracelets]
  rw [hmtot, hmitems, hmn, hmnext, hmprev, hmhead, hf]
  have hg0 : pyget ([1, m] : List Int) 0 0 = 1 := by
    rw [pyget_int _ 0 0 (by omega) (by simp)]
    rfl
  rw [hg0]
  have h10 : (1 : Int) - 1 = 0 := by decide
  rw [h10]
  have hps : pyset ([1, m] : List Int) 0 0 = [0, m] := by
    rw [pyset_int _ 0 0 (by omega) (by simp)]
    rfl
  rw [hps]
  have h21 : (2 : Int) - 1 = 1 := by decide
  rw [h21]
  have hA : pyset (List.replicate (1 + m).toNat 1) 0 0
      = 0 :: List.replicate m.toNat 1 := by
    rw [pyset_int _ 0 0 (by omega) (by simp; omega)]
    have hrep : (1 + m).toNat = m.toNat + 1 := by omega
    rw [Int.toNat_zero, hrep, List.replicate_succ]
    rfl
  rw [hA]
  have hM1n : pyget (⟨[0, m], 2, 1 + m, [-1, 0, 1], [1, 2, 3], 1⟩
      : DoubleLinkedList).n 0 0 = 0 := by
    show pyget ([0, m] : List Int) 0 0 = 0
    rw [pyget_int _ 0 0 (by omega) (by simp)]
    rfl
  rw [hM1n]
  rw [if_pos rfl]
  have hrem : (⟨[0, m], 2, 1 + m, [-1, 0, 1], [1, 2, 3], 1⟩
      : DoubleLinkedList).remove 0
      = ⟨[0, m], 2, 1 + m, [-1, -1, 1], [1, 2, 1], 1⟩ := by
    simp [DoubleLinkedList.remove, pyget, pyset, List.getD]
  simp only [hrem]
  simp only [gen_step]
  have hgm : pyget ([0, m] : List Int) (-1) 0 = m := by
    rw [pyget_neg_one _ _ (by simp)]
    rfl
  rw [hgm]
  rw [if_pos (show m = 1 + m - 2 + 1 by ring)]
  have hrun : pyget (List.replicate (1 + m).toNat 0) (2 - 1 - 1) 0 = 0 := by
    have h0 : (2 - 1 - 1 : Int) = 0 := by decide
    rw [h0, pyget_int _ 0 0 (by omega) (by simp; omega), Int.toNat_zero,
      getD_replicate _ _ _ (by omega)]
  rw [hrun]
  rw [if_pos (show m > 0 by omega)]
  rw [if_neg (show ¬ (2 * ((2 : Int) - 1) > 2 * 1 + (1 + m - 1)) by omega)]
  rw [if_neg (show ¬ (m > 0 ∧ (1 : Int) + 1 ≠ 2) from fun h => h.2 (by ring))]
  rw [if_pos (show (¬ false = true) ∧ (1 + m : Int) = 1 + m from ⟨by simp, rfl⟩)]

/-- C4 (amended): two symbol contents can yield more than one bracelet
(see the counterexample [2, 3]); for contents of the shape [1, m] with
positive m the sorted bracelet list is exactly the one bracelet 0
followed by m copies of the symbol 1. -/
theorem bracelets_one_m (m : Int) (hm : 1 ≤ m) :
    braceletsOf [1, m] = [0 :: List.replicate m.toNat 1]
    ∧ (braceletsOf [1, m]).length = 1 := by
  have h : braceletsOf [1, m] = [0 :: List.replicate m.toNat 1] := by
    simp only [braceletsOf]
    rw [get_bracelets_one_m m hm]
    simp [List.insertionSort, List.orderedInsert]
  exact ⟨h, by rw [h]; rfl⟩

theorem bracelets_one_m_witness :
    braceletsOf [1, 3] = [0 :: List.replicate (3 : Int).toNat 1]
    ∧ (braceletsOf [1, 3]).length = 1 :=
  bracelets_one_m 3 (by decide)

/-- C4 (counterexample): the content vector [2, 3] has two symbols and
positive multiplicities, yet the sorted bracelet list holds two
bracelets, not one. -/
theorem bracelets_23_counterexample :
    braceletsOf [2, 3] = [[0, 0, 1, 1, 1], [0, 1, 0, 1, 1]]
    ∧ (braceletsOf [2, 3]).length = 2 := by
  constructor
  · decide
  · decide

/-! ### Remove followed by add restores the traversal of the ring -/

theorem remove_eq_mk (dll : DoubleLinkedList) (j : Int) :
    dll.remove j = ⟨dll.n, dll.n_items, dll.n_tot,
      pyset dll.next (pyget dll.prev j 0) (pyget dll.next j 0),
      pyset dll.prev (pyget dll.next j 0) (pyget dll.prev j 0),
      if j = dll.head then pyget dll.next j 0 else dll.head⟩ := by
  by_cases hc : j = dll.head
  · simp [DoubleLinkedList.remove, hc]
  · simp [DoubleLinkedList.remove, hc]

theorem add_eq_mk (dll : DoubleLinkedList) (j : Int) :
    dll.add j = ⟨dll.n, dll.n_items, dll.n_tot,
      pyset dll.next (pyget dll.prev j 0) j,
      pyset dll.prev (pyget dll.next j 0) j,
      if pyget (pyset dll.prev (pyget dll.next j 0) j) j 0 = dll.n_items then j
      else dll.head⟩ := by
  by_cases hc : pyget (pyset dll.prev (pyget dll.next j 0) j) j 0 = dll.n_items
  · simp [DoubleLinkedList.add, hc]
  · simp [DoubleLinkedList.add, hc]

/-- C6: removing an available symbol from the ring and adding it back
right away restores the traversal order along the next links from the
head, and the head itself. -/
theorem ring_remove_add_restores (k : Nat) (dll : DoubleLinkedList) (j : Nat)
    (hWF : WF k dll) (hjk : j < k) (hav : 0 < dll.n.getD j 0) :
    ringMembers ((dll.remove (j : Int)).add (j : Int)) = ringMembers dll
    ∧ ((dll.remove (j : Int)).add (j : Int)).head = dll.head := by
  obtain ⟨hitems, hlen, hlnext, hlprev, hhead, hnextC, hprevC⟩ := hWF
  set NJ := maxAvailBelow dll.n j with hNJ
  set PJ := minAvailAbove dll.n k j with hPJ
  have hNJb := maxAvailBelow_bounds dll.n j
  have hPJb : (j : Int) < PJ ∧ PJ ≤ (k : Int) := by
    rcases minAvailAbove_bounds dll.n k j with h | h
    · exact ⟨h, minAvailAbove_le dll.n k j⟩
    · constructor
      · omega
      · omega
  have hjtoNat : ((j : Int)).toNat = j := by omega
  have hPJtoNat : ((PJ).toNat : Int) = PJ := by omega
  have hgnj : pyget dll.next (j : Int) 0 = NJ := by
    rw [pyget_int _ _ _ (by omega) (by rw [hlnext]; push_cast; omega), hjtoNat]
    exact hnextC j (by omega) (Or.inr hav)
  have hgpj : pyget dll.prev (j : Int) 0 = PJ := by
    rw [pyget_int _ _ _ (by omega) (by rw [hlprev]; push_cast; omega), hjtoNat]
    exact hprevC j hjk hav
  have hnextPJ : dll.next.getD PJ.toNat 0 = (j : Int) := by
    have hcase : PJ.toNat = k ∨ 0 < dll.n.getD PJ.toNat 0 := by
      rcases minAvailAbove_cases dll.n k j with h | h
      · left
        omega
      · right
        rw [← hPJ] at h
        exact h.2.2
    rw [hnextC PJ.toNat (by omega) hcase]
    apply maxAvailBelow_unique
    · right
      refine ⟨by omega, by omega, ?_⟩
      rw [hjtoNat]
      exact hav
    · intro i hi hvi
      intro havi
      have := minAvailAbove_le_of_avail dll.n k j i (by omega) (by omega) havi
      omega
  have hremnext : pyset dll.next PJ NJ = dll.next.set PJ.toNat NJ :=
    pyset_int _ _ _ (by omega) (by rw [hlnext]; push_cast; omega)
  have hpyset_slot : ∀ (xs : List Int) (v : Int), xs.length = k + 1 →
      ∃ S2 : Nat, S2 ≠ j ∧ pyset xs NJ v = xs.set S2 v := by
    intro xs v hxl
    by_cases hNJ1 : NJ = -1
    · refine ⟨k, by omega, ?_⟩
      rw [hNJ1, pyset_neg_one _ _ (by
        intro hc
        rw [hc] at hxl
        simp at hxl)]
      rw [show xs.length - 1 = k from by omega]
    · refine ⟨NJ.toNat, by omega, ?_⟩
      exact pyset_int _ _ _ (by omega) (by rw [hxl]; push_cast; omega)
  obtain ⟨S, hSne, hSeq⟩ := hpyset_slot dll.prev PJ hlprev
  obtain ⟨S2, hS2ne, hS2eq⟩ := hpyset_slot (dll.prev.set S PJ) (j : Int)
    (by simp [hlprev])
  have hgRn : pyget (dll.next.set PJ.toNat NJ) (j : Int) 0 = NJ := by
    rw [pyget_int _ _ _ (by omega) (by simp [hlnext]; push_cast; omega), hjtoNat,
      getD_set_ne _ _ (by omega : PJ.toNat ≠ j), hnextC j (by omega) (Or.inr hav)]
  have hgRp : pyget (dll.prev.set S PJ) (j : Int) 0 = PJ := by
    rw [pyget_int _ _ _ (by omega) (by simp [hlprev]; push_cast; omega), hjtoNat,
      getD_set_ne _ _ hSne, hprevC j hjk hav]
  have haddnext : pyset (dll.next.set PJ.toNat NJ) PJ (j : Int) = dll.next := by
    rw [pyset_int _ _ _ (by omega) (by simp [hlnext]; push_cast; omega), List.set_set]
    have hton : PJ.toNat < dll.next.length := by rw [hlnext]; omega
    exact set_getD_self hton hnextPJ
  have hgAp : pyget ((dll.prev.set S PJ).set S2 (j : Int)) (j : Int) 0 = PJ := by
    rw [pyget_int _ _ _ (by omega) (by simp [hlprev]; push_cast; omega), hjtoNat,
      getD_set_ne _ _ hS2ne, getD_set_ne _ _ hSne, hprevC j hjk hav]
  have hfull : (dll.remove (j : Int)).add (j : Int)
      = ⟨dll.n, dll.n_items, dll.n_tot, dll.next,
          (dll.prev.set S PJ).set S2 (j : Int),
          if PJ = dll.n_items then (j : Int)
          else (if (j : Int) = dll.head then NJ else dll.head)⟩ := by
    rw [remove_eq_mk, hgnj, hgpj, hremnext, hSeq, add_eq_mk]
    simp only [hgRn, hgRp, haddnext, hS2eq, hgAp]
  have hheadval : (if PJ = dll.n_items then (j : Int)
      else (if (j : Int) = dll.head then NJ else dll.head)) = dll.head := by
    by_cases hPJk : PJ = (k : Int)
    · rw [hitems, if_pos hPJk]
      symm
      rw [hhead]
      apply maxAvailBelow_unique
      · exact Or.inr ⟨by omega, by omega, by rw [hjtoNat]; exact hav⟩
      · intro i hik hji havi
        have := minAvailAbove_le_of_avail dll.n k j i (by omega) hik havi
        omega
    · rw [hitems, if_neg hPJk]
      have hPJavail : 0 < dll.n.getD PJ.toNat 0 := by
        rcases minAvailAbove_cases dll.n k j with h | h
        · exfalso
          apply hPJk
          rw [hPJ]
          exact h
        · rw [← hPJ] at h
          exact h.2.2
      have hheadge : PJ ≤ maxAvailBelow dll.n k := by
        have := maxAvailBelow_ge_of_avail dll.n k PJ.toNat (by omega) hPJavail
        omega
      rw [if_neg (show ¬ ((j : Int) = dll.head) from by rw [hhead]; omega)]
  rw [hfull]
  constructor
  · show traverseFrom dll.next dll.n_items.toNat (dll.n_items.toNat + 1)
        (if PJ = dll.n_items then (j : Int)
          else (if (j : Int) = dll.head then NJ else dll.head))
      = ringMembers dll
    rw [hheadval]
    rfl
  · show (if PJ = dll.n_items then (j : Int)
          else (if (j : Int) = dll.head then NJ else dll.head)) = dll.head
    exact hheadval

theorem ring_remove_add_restores_witness :
    ringMembers (((DoubleLinkedList.make [3, 4, 5]).remove ((1 : Nat) : Int)).add
        ((1 : Nat) : Int))
      = ringMembers (DoubleLinkedList.make [3, 4, 5])
    ∧ (((DoubleLinkedList.make [3, 4, 5]).remove ((1 : Nat) : Int)).add
        ((1 : Nat) : Int)).head
      = (DoubleLinkedList.make [3, 4, 5]).head :=
  ring_remove_add_restores 3 (DoubleLinkedList.make [3, 4, 5]) 1
    (by constructor <;> decide) (by decide) (by decide)

/-! ### The traversal of a well formed ring -/

theorem availDesc_congr_none (n : List Int) (a m : Nat) (ham : a ≤ m)
    (hnone : ∀ x : Nat, a ≤ x → x < m → ¬ 0 < n.getD x 0) :
    availDesc n m = availDesc n a := by
  induction m with
  | zero =>
      have : a = 0 := by omega
      rw [this]
  | succ m ih =>
      by_cases ha : a = m + 1
      · rw [ha]
      · have ham2 : a ≤ m := by omega
        rw [availDesc, if_neg (hnone m (by omega) (by omega))]
        exact ih ham2 (fun x hx1 hx2 => hnone x hx1 (by omega))

theorem traverse_eq_availDesc (n : List Int) (next : List Int) (k : Nat)
    (hlnext : next.length = k + 1)
    (hnext : ∀ i : Nat, i < k → 0 < n.getD i 0 →
      next.getD i 0 = maxAvailBelow n i) :
    ∀ (fuel m : Nat), m ≤ fuel → m ≤ k →
      traverseFrom next k fuel (maxAvailBelow n m) = availDesc n m := by
  intro fuel
  induction fuel with
  | zero =>
      intro m hm hk
      have : m = 0 := by omega
      subst this
      rfl
  | succ fuel ih =>
      intro m hm hk
      rcases maxAvailBelow_cases n m with h | h
      · rw [h]
        simp only [traverseFrom]
        rw [if_neg (by omega)]
        symm
        rw [availDesc_congr_none n 0 m (by omega)
          (fun x hx1 hx2 => maxAvailBelow_max n m x hx2 (by omega))]
        rfl
      · obtain ⟨h0, hlt, hava⟩ := h
        have htoNat : (((maxAvailBelow n m).toNat : Nat) : Int)
            = maxAvailBelow n m := by omega
        simp only [traverseFrom]
        rw [if_pos ⟨h0, by omega⟩]
        have hnext2 : pyget next (maxAvailBelow n m) 0
            = maxAvailBelow n (maxAvailBelow n m).toNat := by
          rw [pyget_int _ _ _ h0 (by rw [hlnext]; push_cast; omega)]
          exact hnext (maxAvailBelow n m).toNat (by omega) hava
        rw [hnext2]
        rw [ih (maxAvailBelow n m).toNat (by omega) (by omega)]
        rw [availDesc_congr_none n ((maxAvailBelow n m).toNat + 1) m (by omega)
          (fun x hx1 hx2 => maxAvailBelow_max n m x hx2 (by omega))]
        simp only [availDesc]
        rw [if_pos hava, htoNat]

theorem ringMembers_eq_availDesc (k : Nat) (dll : DoubleLinkedList)
    (hWF : WF k dll) : ringMembers dll = availDesc dll.n k := by
  obtain ⟨hitems, hlen, hlnext, hlprev, hhead, hnextC, hprevC⟩ := hWF
  show traverseFrom dll.next dll.n_items.toNat (dll.n_items.toNat + 1) dll.head = _
  rw [hitems]
  have hkk : (((k : Nat) : Int)).toNat = k := by omega
  rw [hkk, hhead]
  exact traverse_eq_availDesc dll.n dll.next k hlnext
    (fun i hik hav => hnextC i (by omega) (Or.inr hav)) (k + 1) k (by omega)
    (by omega)

theorem availDesc_mem (n : List Int) (m : Nat) (x : Int) :
    x ∈ availDesc n m ↔ ∃ i : Nat, i < m ∧ x = (i : Int) ∧ 0 < n.getD i 0 := by
  induction m with
  | zero => simp [availDesc]
  | succ m ih =>
      simp only [availDesc]
      by_cases h : 0 < n.getD m 0
      · rw [if_pos h]
        simp only [List.mem_cons, ih]
        constructor
        · rintro (rfl | ⟨i, h1, h2, h3⟩)
          · exact ⟨m, by omega, rfl, h⟩
          · exact ⟨i, by omega, h2, h3⟩
        · rintro ⟨i, h1, rfl, h3⟩
          by_cases him : i = m
          · left
            rw [him]
          · right
            exact ⟨i, by omega, rfl, h3⟩
      · rw [if_neg h, ih]
        constructor
        · rintro ⟨i, h1, h2, h3⟩
          exact ⟨i, by omega, h2, h3⟩
        · rintro ⟨i, h1, rfl, h3⟩
          refine ⟨i, ?_, rfl, h3⟩
          by_cases him : i = m
          · rw [him] at h3
            exact absurd h3 h
          · omega

/-- C7 (amended): in every well formed state the ring holds exactly the
symbols with positive remaining count, but the head is the LARGEST such
symbol, not the smallest: head equals maxAvailBelow n k and bounds every
available symbol from above. -/
theorem ring_members_and_head (k : Nat) (dll : DoubleLinkedList)
    (hWF : WF k dll) :
    (∀ i : Nat, i < k → ((i : Int) ∈ ringMembers dll ↔ 0 < dll.n.getD i 0))
    ∧ dll.head = maxAvailBelow dll.n k
    ∧ (∀ i : Nat, i < k → 0 < dll.n.getD i 0 → (i : Int) ≤ dll.head) := by
  refine ⟨?_, hWF.2.2.2.2.1, ?_⟩
  · intro i hik
    rw [ringMembers_eq_availDesc k dll hWF, availDesc_mem]
    constructor
    · rintro ⟨i2, h1, h2, h3⟩
      have hii : i2 = i := by omega
      rw [← hii]
      exact h3
    · intro h
      exact ⟨i, hik, rfl, h⟩
  · intro i hik hav
    rw [hWF.2.2.2.2.1]
    exact maxAvailBelow_ge_of_avail dll.n k i hik hav

theorem ring_members_and_head_witness :
    (((1 : Nat) : Int) ∈ ringMembers (DoubleLinkedList.make [3, 4, 5]) ↔
      0 < (DoubleLinkedList.make [3, 4, 5]).n.getD 1 0)
    ∧ (DoubleLinkedList.make [3, 4, 5]).head
        = maxAvailBelow (DoubleLinkedList.make [3, 4, 5]).n 3 := by
  have h := ring_members_and_head 3 (DoubleLinkedList.make [3, 4, 5])
    (by constructor <;> decide)
  exact ⟨h.1 1 (by decide), h.2.1⟩

/-- C7 (counterexample): immediately after construction from [1, 1] both
symbols are available and the smallest available symbol is 0, but head
is 1, the largest, so head is not the minimum available symbol. -/
theorem make_head_not_smallest :
    (DoubleLinkedList.make [1, 1]).head = 1
    ∧ ((0 : Int) ∈ ringMembers (DoubleLinkedList.make [1, 1]))
    ∧ 0 < (DoubleLinkedList.make [1, 1]).n.getD 0 0
    ∧ ¬ ((DoubleLinkedList.make [1, 1]).head = 0) := by
  refine ⟨by decide, by decide, by decide, by decide⟩

theorem check_int_entries_iff (cs : List PyObj) :
    check_int_entries cs = .ok () ↔ ∀ x ∈ cs, isIntObj x = true := by
  induction cs with
  | nil => simp [check_int_entries]
  | cons x rest ih =>
      simp only [check_int_entries]
      by_cases hx : isIntObj x = true
      · rw [if_pos hx, ih]
        simp [hx]
      · rw [if_neg hx]
        constructor
        · intro h
          exact Except.noConfusion h
        · intro h
          exact absurd (h x (by simp)) hx

/-- C8 (amended): with the composition given as a Python list and no
element list, the validation of Isomers.__init__ succeeds iff the
length lies between 2 and 26 and every entry is an int.  The
multiplicity values are never inspected, so zero or negative
multiplicities pass validation, against the specification. -/
theorem isomers_validate_iff (composition : List PyObj) :
    isomers_init_validate composition none = .ok ()
    ↔ (2 ≤ composition.length ∧ composition.length ≤ 26
        ∧ ∀ x ∈ composition, isIntObj x = true) := by
  unfold isomers_init_validate
  by_cases h1 : composition.length < 2
  · rw [if_pos h1]
    exact ⟨fun h => Except.noConfusion h, fun h => absurd h.1 (by omega)⟩
  · rw [if_neg h1]
    by_cases h2 : 26 < composition.length
    · rw [if_pos h2]
      exact ⟨fun h => Except.noConfusion h, fun h => absurd h.2.1 (by omega)⟩
    · rw [if_neg h2]
      cases hcheck : check_int_entries composition with
      | error e =>
          simp only [hcheck]
          refine ⟨fun h => Except.noConfusion h, fun h => ?_⟩
          have hok := (check_int_entries_iff composition).mpr h.2.2
          rw [hcheck] at hok
          exact Except.noConfusion hok
      | ok u =>
          cases u
          simp only [hcheck]
          exact ⟨fun _ => ⟨by omega, by omega,
            (check_int_entries_iff composition).mp hcheck⟩, fun _ => trivial⟩

theorem isomers_validate_iff_witness :
    isomers_init_validate [PyObj.pyint 1, PyObj.pyint 2] none = .ok () :=
  (isomers_validate_iff [PyObj.pyint 1, PyObj.pyint 2]).mpr (by decide)

/-- C8 (counterexample): the composition [2, 0] carries a zero
multiplicity, which the specification says is rejected at construction,
yet the validation accepts it and the bracelet generator then quietly
produces the empty list. -/
theorem isomers_validate_accepts_zero :
    isomers_init_validate [PyObj.pyint 2, PyObj.pyint 0] none = .ok ()
    ∧ braceletsOf [2, 0] = [] := by
  constructor
  · rfl
  · decide

/-- C10 (amended): with elements = None, get_isomer_subset raises
TypeError exactly when the bracelet tuple list is nonempty; when the
generator produced no bracelet at all, the None element list is never
subscripted and the call returns the empty list. -/
theorem subset_none_elements (composition : List Int) :
    get_isomer_subset_defaults composition none
      = if asTupleOf composition = [] then .ok []
        else .error (.typeError "NoneType object is not subscriptable") := by
  unfold get_isomer_subset_defaults
  cases hts : asTupleOf composition with
  | nil => simp [as_tuples, isomers_from_tuples]
  | cons b rest =>
      have hbne : b ≠ [] := by
        have hmem : b ∈ asTupleOf composition := by
          rw [hts]
          simp
        simp only [asTupleOf, List.mem_map] at hmem
        obtain ⟨x, hx, rfl⟩ := hmem
        simp only [compressRLE]
        exact compressAux_ne_nil _ _ _
      rw [if_neg (by simp)]
      cases b with
      | nil => exact absurd rfl hbne
      | cons t b2 => simp [as_tuples, as_tuples_brac]

theorem subset_none_elements_witness :
    get_isomer_subset_defaults [1, 1] none
      = .error (.typeError "NoneType object is not subscriptable") :=
  (subset_none_elements [1, 1]).trans (if_neg (by decide))

/-- C10 (counterexample): for the composition [2, 0] the bracelet list
is empty, so _as_tuples never indexes the None element list and
get_isomer_subset returns the empty list without raising TypeError. -/
theorem subset_none_elements_no_error :
    get_isomer_subset_defaults [2, 0] none = .ok [] := rfl

end Ferecrystal
